import Mathlib

/-!
Verification of the connector-line subsystem of the year-circle journaling
canvas.  The JavaScript sources are shallowly embedded over exact rational
arithmetic (JS floating-point numbers are idealised as rationals; float
rounding is outside the model).  Where the source computes a Euclidean
distance with Math.sqrt only to compare it against a constant or to sort,
the embedding stores the squared distance and compares against the squared
constant: Real.sqrt is strictly monotone on nonnegative arguments, so the
comparison results are identical and no behaviour changes.
-/

namespace YearCircle

/-- A point with finite numeric coordinates, as used by the geometry engine
and by note records whose path data has been validated to be numeric. -/
structure Pt where
  x : ℚ
  y : ℚ
deriving DecidableEq, Repr

/-- Clamp mirroring the source idiom Math.max(lo, Math.min(hi, v)). -/
def clampQ (lo hi v : ℚ) : ℚ := max lo (min hi v)

/-- One candidate produced inside calculateClosestEdgePoint: a point on one
rectangle edge together with its (squared) distance to the target point.
The source stores the distance itself (Math.sqrt of this value); we keep
the square, see the file header. -/
structure EdgeCand where
  x : ℚ
  y : ℚ
  d2 : ℚ
deriving DecidableEq, Repr

instance : Inhabited EdgeCand := ⟨⟨0, 0, 0⟩⟩

/-- The four edge candidates pushed into edgePoints by
calculateClosestEdgePoint, in source order: left, right, top, bottom.
Each candidate's d2 field is the square of the Euclidean distance the
source computes with Math.sqrt. -/
def edgeCandidates (targetX targetY cardX cardY cardWidth cardHeight : ℚ) :
    List EdgeCand :=
  let left := cardX
  let right := cardX + cardWidth
  let top := cardY
  let bottom := cardY + cardHeight
  [ { x := left, y := clampQ top bottom targetY,
      d2 := (targetX - left) ^ 2 + (targetY - clampQ top bottom targetY) ^ 2 },
    { x := right, y := clampQ top bottom targetY,
      d2 := (targetX - right) ^ 2 + (targetY - clampQ top bottom targetY) ^ 2 },
    { x := clampQ left right targetX, y := top,
      d2 := (targetX - clampQ left right targetX) ^ 2 + (targetY - top) ^ 2 },
    { x := clampQ left right targetX, y := bottom,
      d2 := (targetX - clampQ left right targetX) ^ 2 + (targetY - bottom) ^ 2 } ]

/-- The comparator passed to Array.prototype.sort in the source is
(a, b) => a.distance - b.distance; ECMAScript sort is stable, which this
relation together with List.insertionSort models exactly.  Comparing
squared distances orders the list identically (sqrt is monotone). -/
def candLE (a b : EdgeCand) : Prop := a.d2 ≤ b.d2

instance : DecidableRel candLE := fun a b => inferInstanceAs (Decidable (a.d2 ≤ b.d2))

/-- Embedding of calculateForcedConnectionPoint (circle renderer).  The
source normalises (dx, dy) by distance = Math.sqrt (dx^2 + dy^2); in exact
arithmetic distance === 0 iff dx = 0 and dy = 0, the test
Math.abs(normalizedDx) > Math.abs(normalizedDy) equals |dx| > |dy|, the sign
tests normalizedDx > 0 and normalizedDy > 0 equal dx > 0 and dy > 0, and the
slope normalizedDy / normalizedDx equals dy / dx, so the common sqrt factor
cancels throughout and the embedding works with dx, dy directly.  (The
rational divisions below are applied only when their divisor is nonzero:
the |dx| > |dy| branch forces dx ≠ 0, and in the other branch dy = 0 would
force dx = 0, which the distance-zero test has already returned on.) -/
def calculateForcedConnectionPoint (targetX targetY cardX cardY cardWidth
    cardHeight minDistance : ℚ) : Pt :=
  let centerX := cardX + cardWidth / 2
  let centerY := cardY + cardHeight / 2
  let dx := targetX - centerX
  let dy := targetY - centerY
  if dx = 0 ∧ dy = 0 then
    { x := cardX - minDistance, y := centerY }
  else if |dx| > |dy| then
    if dx > 0 then
      let connectionX := cardX + cardWidth
      { x := connectionX,
        y := clampQ cardY (cardY + cardHeight)
               (centerY + (connectionX - centerX) * dy / dx) }
    else
      let connectionX := cardX
      { x := connectionX,
        y := clampQ cardY (cardY + cardHeight)
               (centerY + (connectionX - centerX) * dy / dx) }
  else
    if dy > 0 then
      let connectionY := cardY + cardHeight
      { x := clampQ cardX (cardX + cardWidth)
               (centerX + (connectionY - centerY) * dx / dy),
        y := connectionY }
    else
      let connectionY := cardY
      { x := clampQ cardX (cardX + cardWidth)
               (centerX + (connectionY - centerY) * dx / dy),
        y := connectionY }

/-- Embedding of calculateClosestEdgePoint (circle renderer).  Distances
are kept squared (MIN_CONNECTION_LENGTH = 20 becomes 400 after squaring,
and the ascending stable sort is unchanged); see the file header. -/
def calculateClosestEdgePoint (targetX targetY cardX cardY cardWidth
    cardHeight : ℚ) : Pt :=
  let left := cardX
  let right := cardX + cardWidth
  let top := cardY
  let bottom := cardY + cardHeight
  let isInsideOrTooClose :=
    targetX ≥ left - 20 ∧ targetX ≤ right + 20 ∧
    targetY ≥ top - 20 ∧ targetY ≤ bottom + 20
  if isInsideOrTooClose then
    calculateForcedConnectionPoint targetX targetY cardX cardY cardWidth
      cardHeight 20
  else
    let edgePoints := edgeCandidates targetX targetY cardX cardY cardWidth
      cardHeight
    let validEdgePoints := edgePoints.filter (fun p => 400 ≤ p.d2)
    if validEdgePoints.length = 0 then
      calculateForcedConnectionPoint targetX targetY cardX cardY cardWidth
        cardHeight 20
    else
      let sorted := validEdgePoints.insertionSort candLE
      { x := sorted.headI.x, y := sorted.headI.y }

/-- A point lies on the boundary of the axis-aligned rectangle with corner
(cx, cy) and size (w, h): one coordinate equals an edge's boundary value
and the other lies within that edge's span. -/
def OnRectBoundary (cx cy w h : ℚ) (p : Pt) : Prop :=
  ((p.x = cx ∨ p.x = cx + w) ∧ cy ≤ p.y ∧ p.y ≤ cy + h) ∨
  ((p.y = cy ∨ p.y = cy + h) ∧ cx ≤ p.x ∧ p.x ≤ cx + w)

instance (cx cy w h : ℚ) (p : Pt) : Decidable (OnRectBoundary cx cy w h p) := by
  unfold OnRectBoundary; infer_instance

lemma clampQ_ge (lo hi v : ℚ) : lo ≤ clampQ lo hi v := le_max_left _ _

lemma clampQ_le (lo hi v : ℚ) (h : lo ≤ hi) : clampQ lo hi v ≤ hi :=
  max_le h (min_le_left _ _)

/-- The head of a stable insertion sort by squared distance is a minimum of
the input, and it is the earliest minimum: every strictly earlier input
element has strictly larger key.  This captures the ECMAScript guarantee
that Array.prototype.sort is stable. -/
lemma insertionSort_head_spec (l : List EdgeCand) (c : EdgeCand)
    (hc : (l.insertionSort candLE).head? = some c) :
    (∀ b ∈ l, c.d2 ≤ b.d2) ∧
    ∃ i : ℕ, l[i]? = some c ∧
      ∀ j : ℕ, j < i → ∀ b : EdgeCand, l[j]? = some b → c.d2 < b.d2 := by
  induction l generalizing c with
  | nil => simp [List.insertionSort] at hc
  | cons x xs ih =>
    rw [List.insertionSort] at hc
    cases hsort : xs.insertionSort candLE with
    | nil =>
      have hxs : xs = [] := by
        have hp := List.perm_insertionSort candLE xs
        rw [hsort] at hp
        exact (List.nil_perm.mp hp)
      rw [hsort] at hc
      simp only [List.orderedInsert, List.head?_cons, Option.some.injEq] at hc
      subst hc
      refine ⟨?_, 0, by simp, by simp⟩
      intro b hb
      rcases List.mem_cons.mp hb with rfl | hb
      · exact le_refl _
      · simp [hxs] at hb
    | cons y t =>
      rw [hsort] at hc
      obtain ⟨hymin, i, hyi, hyearly⟩ := ih y (by rw [hsort]; rfl)
      rw [List.orderedInsert] at hc
      by_cases hxy : candLE x y
      · rw [if_pos hxy] at hc
        simp only [List.head?_cons, Option.some.injEq] at hc
        subst hc
        refine ⟨?_, 0, by simp, by simp⟩
        intro b hb
        rcases List.mem_cons.mp hb with rfl | hb
        · exact le_refl _
        · exact le_trans hxy (hymin b hb)
      · rw [if_neg hxy] at hc
        simp only [List.head?_cons, Option.some.injEq] at hc
        subst hc
        have hyx : y.d2 < x.d2 := lt_of_not_le hxy
        refine ⟨?_, i + 1, by rw [List.getElem?_cons_succ]; exact hyi, ?_⟩
        · intro b hb
          rcases List.mem_cons.mp hb with rfl | hb
          · exact le_of_lt hyx
          · exact hymin b hb
        · intro j hj b hb
          cases j with
          | zero =>
            simp only [List.getElem?_cons_zero, Option.some.injEq] at hb
            subst hb; exact hyx
          | succ j' =>
            simp only [List.getElem?_cons_succ] at hb
            exact hyearly j' (Nat.lt_of_succ_lt_succ hj) b hb

/-- Every edge candidate lies on the rectangle's boundary. -/
lemma edgeCandidates_on_boundary (tx ty cx cy w h : ℚ) (hw : 0 ≤ w)
    (hh : 0 ≤ h) :
    ∀ c ∈ edgeCandidates tx ty cx cy w h,
      OnRectBoundary cx cy w h ⟨c.x, c.y⟩ := by
  have hcy : cy ≤ cy + h := by linarith
  have hcx : cx ≤ cx + w := by linarith
  intro c hc
  simp only [edgeCandidates, List.mem_cons, List.not_mem_nil, or_false] at hc
  rcases hc with rfl | rfl | rfl | rfl
  · exact Or.inl ⟨Or.inl rfl, clampQ_ge _ _ _, clampQ_le _ _ _ hcy⟩
  · exact Or.inl ⟨Or.inr rfl, clampQ_ge _ _ _, clampQ_le _ _ _ hcy⟩
  · exact Or.inr ⟨Or.inl rfl, clampQ_ge _ _ _, clampQ_le _ _ _ hcx⟩
  · exact Or.inr ⟨Or.inr rfl, clampQ_ge _ _ _, clampQ_le _ _ _ hcx⟩

/-- Each candidate's stored d2 is the squared distance from the target
point to the candidate's own coordinates. -/
lemma edgeCandidates_d2_eq (tx ty cx cy w h : ℚ) :
    ∀ c ∈ edgeCandidates tx ty cx cy w h,
      c.d2 = (tx - c.x) ^ 2 + (ty - c.y) ^ 2 := by
  intro c hc
  simp only [edgeCandidates, List.mem_cons, List.not_mem_nil, or_false] at hc
  rcases hc with rfl | rfl | rfl | rfl <;> rfl

/-- When the target point lies outside the rectangle expanded by the
minimum connection length on every side, each of the four edge candidates
has squared distance strictly greater than 400 = 20 squared. -/
lemma edgeCandidates_d2_big (tx ty cx cy w h : ℚ) (hw : 0 ≤ w) (hh : 0 ≤ h)
    (hout : tx < cx - 20 ∨ cx + w + 20 < tx ∨ ty < cy - 20 ∨ cy + h + 20 < ty) :
    ∀ c ∈ edgeCandidates tx ty cx cy w h, 400 < c.d2 := by
  have hcy : cy ≤ cy + h := by linarith
  have hcx : cx ≤ cx + w := by linarith
  have hy1 : cy ≤ clampQ cy (cy + h) ty := clampQ_ge _ _ _
  have hy2 : clampQ cy (cy + h) ty ≤ cy + h := clampQ_le _ _ _ hcy
  have hx1 : cx ≤ clampQ cx (cx + w) tx := clampQ_ge _ _ _
  have hx2 : clampQ cx (cx + w) tx ≤ cx + w := clampQ_le _ _ _ hcx
  intro c hc
  simp only [edgeCandidates, List.mem_cons, List.not_mem_nil, or_false] at hc
  rcases hc with rfl | rfl | rfl | rfl
  · dsimp only
    rcases hout with h1 | h1 | h1 | h1
    · nlinarith [sq_nonneg (ty - clampQ cy (cy + h) ty)]
    · nlinarith [sq_nonneg (ty - clampQ cy (cy + h) ty)]
    · nlinarith [sq_nonneg (tx - cx), hy1]
    · nlinarith [sq_nonneg (tx - cx), hy2]
  · dsimp only
    rcases hout with h1 | h1 | h1 | h1
    · nlinarith [sq_nonneg (ty - clampQ cy (cy + h) ty)]
    · nlinarith [sq_nonneg (ty - clampQ cy (cy + h) ty)]
    · nlinarith [sq_nonneg (tx - (cx + w)), hy1]
    · nlinarith [sq_nonneg (tx - (cx + w)), hy2]
  · dsimp only
    rcases hout with h1 | h1 | h1 | h1
    · nlinarith [sq_nonneg (ty - cy), hx1]
    · nlinarith [sq_nonneg (ty - cy), hx2]
    · nlinarith [sq_nonneg (tx - clampQ cx (cx + w) tx)]
    · nlinarith [sq_nonneg (tx - clampQ cx (cx + w) tx)]
  · dsimp only
    rcases hout with h1 | h1 | h1 | h1
    · nlinarith [sq_nonneg (ty - (cy + h)), hx1]
    · nlinarith [sq_nonneg (ty - (cy + h)), hx2]
    · nlinarith [sq_nonneg (tx - clampQ cx (cx + w) tx)]
    · nlinarith [sq_nonneg (tx - clampQ cx (cx + w) tx)]


/-- C1: for an anchor outside the rectangle expanded by
MIN_CONNECTION_LENGTH = 20 on every side, calculateClosestEdgePoint returns
a point on the rectangle boundary whose squared distance to the anchor is
at least 400 = 20 squared, which is minimal among the four edges' clamped
candidates, with ties broken in the enumeration order left, right, top,
bottom (the first candidate attaining the minimum wins). -/
theorem calculateClosestEdgePoint_spec (tx ty cx cy w h : ℚ)
    (hw : 0 ≤ w) (hh : 0 ≤ h)
    (hout : tx < cx - 20 ∨ cx + w + 20 < tx ∨ ty < cy - 20 ∨ cy + h + 20 < ty) :
    OnRectBoundary cx cy w h (calculateClosestEdgePoint tx ty cx cy w h) ∧
    400 ≤ (tx - (calculateClosestEdgePoint tx ty cx cy w h).x) ^ 2 +
          (ty - (calculateClosestEdgePoint tx ty cx cy w h).y) ^ 2 ∧
    (∀ c ∈ edgeCandidates tx ty cx cy w h,
      (tx - (calculateClosestEdgePoint tx ty cx cy w h).x) ^ 2 +
      (ty - (calculateClosestEdgePoint tx ty cx cy w h).y) ^ 2 ≤ c.d2) ∧
    ∃ i : ℕ, ∃ c : EdgeCand, (edgeCandidates tx ty cx cy w h)[i]? = some c ∧
      calculateClosestEdgePoint tx ty cx cy w h = ⟨c.x, c.y⟩ ∧
      ∀ j : ℕ, j < i → ∀ b : EdgeCand,
        (edgeCandidates tx ty cx cy w h)[j]? = some b → c.d2 < b.d2 := by
  have hnot : ¬ (tx ≥ cx - 20 ∧ tx ≤ cx + w + 20 ∧
      ty ≥ cy - 20 ∧ ty ≤ cy + h + 20) := by
    rcases hout with h1 | h1 | h1 | h1 <;>
      · intro hcon
        obtain ⟨a1, a2, a3, a4⟩ := hcon
        linarith
  have hbig := edgeCandidates_d2_big tx ty cx cy w h hw hh hout
  have hfilter : (edgeCandidates tx ty cx cy w h).filter
      (fun p => decide (400 ≤ p.d2)) = edgeCandidates tx ty cx cy w h := by
    apply List.filter_eq_self.mpr
    intro a ha
    exact decide_eq_true (le_of_lt (hbig a ha))
  have hlen : (edgeCandidates tx ty cx cy w h).length = 4 := by
    simp [edgeCandidates]
  have hres : calculateClosestEdgePoint tx ty cx cy w h =
      { x := ((edgeCandidates tx ty cx cy w h).insertionSort candLE).headI.x,
        y := ((edgeCandidates tx ty cx cy w h).insertionSort candLE).headI.y } := by
    unfold calculateClosestEdgePoint
    rw [if_neg hnot]
    simp only [hfilter, hlen]
    norm_num
  have hslen : ((edgeCandidates tx ty cx cy w h).insertionSort candLE).length = 4 := by
    rw [(List.perm_insertionSort candLE _).length_eq, hlen]
  obtain ⟨c, hc⟩ : ∃ c, ((edgeCandidates tx ty cx cy w h).insertionSort
      candLE).head? = some c := by
    cases hsl : (edgeCandidates tx ty cx cy w h).insertionSort candLE with
    | nil => rw [hsl] at hslen; simp at hslen
    | cons a t => exact ⟨a, rfl⟩
  obtain ⟨hmin, i, hgi, hearly⟩ := insertionSort_head_spec _ c hc
  have hcpt : calculateClosestEdgePoint tx ty cx cy w h = ⟨c.x, c.y⟩ := by
    rw [hres]
    cases hsl : (edgeCandidates tx ty cx cy w h).insertionSort candLE with
    | nil => rw [hsl] at hslen; simp at hslen
    | cons a t =>
      rw [hsl] at hc
      simp only [List.head?_cons, Option.some.injEq] at hc
      subst hc
      rfl
  have hcmem : c ∈ edgeCandidates tx ty cx cy w h := by
    exact List.getElem?_mem hgi
  have hd2 : c.d2 = (tx - c.x) ^ 2 + (ty - c.y) ^ 2 :=
    edgeCandidates_d2_eq tx ty cx cy w h c hcmem
  refine ⟨?_, ?_, ?_, i, c, hgi, hcpt, hearly⟩
  · rw [hcpt]; exact edgeCandidates_on_boundary tx ty cx cy w h hw hh c hcmem
  · rw [hcpt]
    simpa using le_of_lt (hd2 ▸ hbig c hcmem)
  · intro b hb
    rw [hcpt]
    simpa using hd2 ▸ hmin b hb

/-- C1 witness: the spec's concrete example.  Anchor (100, 100) and rect
x 200, y 80, width 150, height 100 lie in the theorem's scope (the anchor
is left of the expanded rectangle) and the returned point is (200, 100),
on the left edge with y clamped to 100. -/
theorem calculateClosestEdgePoint_spec_witness :
    calculateClosestEdgePoint 100 100 200 80 150 100 = ⟨200, 100⟩ ∧
    OnRectBoundary 200 80 150 100 (calculateClosestEdgePoint 100 100 200 80 150 100) ∧
    400 ≤ (100 - (calculateClosestEdgePoint 100 100 200 80 150 100).x) ^ 2 +
          (100 - (calculateClosestEdgePoint 100 100 200 80 150 100).y) ^ 2 := by
  have hs := calculateClosestEdgePoint_spec 100 100 200 80 150 100
    (by norm_num) (by norm_num) (Or.inl (by norm_num))
  refine ⟨?_, hs.1, hs.2.1⟩
  norm_num [calculateClosestEdgePoint, edgeCandidates, clampQ, candLE,
    List.filter, List.insertionSort, List.orderedInsert, List.headI]

/-- C2 counterexample: for anchor (50, 30) coinciding with the center of
the rectangle at (0, 0) with width 100 and height 60 (the anchor is inside
the rectangle, hence inside the expanded rectangle), the forced-offset
fallback returns (-20, 30), which is 20 pixels to the LEFT of the left
edge and therefore not on the rectangle boundary, refuting the claim's
"including the degenerate center case" part. -/
theorem calculateForcedConnectionPoint_center_off_boundary :
    calculateForcedConnectionPoint 50 30 0 0 100 60 20 = ⟨-20, 30⟩ ∧
    ¬ OnRectBoundary 0 0 100 60 ⟨-20, 30⟩ := by
  constructor
  · norm_num [calculateForcedConnectionPoint]
  · norm_num [OnRectBoundary]

/-- C2 (amended): whenever the anchor does NOT coincide exactly with the
rectangle's center (the direction vector is nonzero), the forced-offset
fallback returns a point lying exactly on one of the rectangle's four
edges: one coordinate equals that edge's boundary value and the other is
clamped within the edge's span.  (In the center-coincidence case the source
instead returns the point MIN_CONNECTION_LENGTH to the left of the left
edge at the vertical center, which is off the perimeter, see the
counterexample.)  The expanded-rectangle containment hypothesis records the
claim's scope; the conclusion holds for any anchor other than the center. -/
theorem calculateForcedConnectionPoint_on_boundary (tx ty cx cy w h : ℚ)
    (hw : 0 ≤ w) (hh : 0 ≤ h)
    (hin : cx - 20 ≤ tx ∧ tx ≤ cx + w + 20 ∧ cy - 20 ≤ ty ∧ ty ≤ cy + h + 20)
    (hne : ¬ (tx - (cx + w / 2) = 0 ∧ ty - (cy + h / 2) = 0)) :
    OnRectBoundary cx cy w h (calculateForcedConnectionPoint tx ty cx cy w h 20) := by
  have hcy : cy ≤ cy + h := by linarith
  have hcx : cx ≤ cx + w := by linarith
  unfold calculateForcedConnectionPoint
  rw [if_neg hne]
  split_ifs with habs hdx hdy
  · exact Or.inl ⟨Or.inr rfl, clampQ_ge _ _ _, clampQ_le _ _ _ hcy⟩
  · exact Or.inl ⟨Or.inl rfl, clampQ_ge _ _ _, clampQ_le _ _ _ hcy⟩
  · exact Or.inr ⟨Or.inr rfl, clampQ_ge _ _ _, clampQ_le _ _ _ hcx⟩
  · exact Or.inr ⟨Or.inl rfl, clampQ_ge _ _ _, clampQ_le _ _ _ hcx⟩

/-- C2 witness: the spec's second example scenario, anchor (250, 130)
inside rect x 200, y 80, width 150, height 100: the fallback's result lies
on the rectangle boundary (here the left edge, since the anchor sits left
of the center (275, 130)). -/
theorem calculateForcedConnectionPoint_on_boundary_witness :
    OnRectBoundary 200 80 150 100
      (calculateForcedConnectionPoint 250 130 200 80 150 100 20) ∧
    calculateForcedConnectionPoint 250 130 200 80 150 100 20 = ⟨200, 130⟩ := by
  refine ⟨calculateForcedConnectionPoint_on_boundary 250 130 200 80 150 100
    (by norm_num) (by norm_num) (by norm_num) (by norm_num), ?_⟩
  norm_num [calculateForcedConnectionPoint, clampQ]

/-! Path serialisation and parsing.

JS numbers are modelled as Option rationals: some q is the finite number
q, none is NaN (whose relevant behaviour here is that String(NaN) renders
as the three letters N a N, that arithmetic propagates it, and that every
comparison involving it is false).  Within the rational idealisation the
rendering of a finite number is its plain decimal numeral; the JS switch
to exponent notation happens only for magnitudes at or above 1e21 or
below 1e-7, far outside the pixel coordinate ranges this system deals in,
and is outside the model. -/

/-- A parser-level point: JS number coordinates (none models NaN). -/
structure JPt where
  x : Option ℚ
  y : Option ℚ
deriving DecidableEq, Repr

instance : Inhabited JPt := ⟨⟨none, none⟩⟩

/-- Character class of the regex fragment \\d (the ASCII digits). -/
def isDigitC (c : Char) : Bool := c.isDigit

/-- Character class of the regex fragment [\\d.-]. -/
def isNumClass (c : Char) : Bool := c.isDigit || c == '.' || c == '-'

/-- Character class of the regex fragment \\s, restricted to the common
whitespace characters (the generated strings only ever contain a plain
space). -/
def jsWhitespace (c : Char) : Bool :=
  c == ' ' || c == '\t' || c == '\n' || c == '\r'

/-- Numeric value of a digit character. -/
def digitVal (c : Char) : ℕ := c.toNat - 48

/-- Big-endian digit characters folded into a natural number, as JS
parseFloat accumulates digits left to right. -/
def natFromDigitsChars (cs : List Char) : ℕ :=
  cs.foldl (fun a c => 10 * a + digitVal c) 0

/-- Model of JS parseFloat restricted to the token language [\\d.-]+ that
parsePathData feeds it: an optional leading minus sign, then digits, then
an optional dot and more digits, stopping at the first character that can
no longer extend a valid numeral; none models a NaN result (no digit could
be read).  On this token language parseFloat can produce neither Infinity
nor an exponent, so the model is total. -/
def parseFloatQ (cs : List Char) : Option ℚ :=
  let neg : Bool := cs.head? == some '-'
  let cs1 : List Char := if neg then cs.tail else cs
  let ip := cs1.takeWhile isDigitC
  let r1 := cs1.dropWhile isDigitC
  let fp : List Char :=
    if r1.head? == some '.' then r1.tail.takeWhile isDigitC else []
  if ip.isEmpty && fp.isEmpty then none
  else
    let v : ℚ := (natFromDigitsChars ip : ℚ) +
      (natFromDigitsChars fp : ℚ) / (10 : ℚ) ^ fp.length
    some (if neg then -v else v)

/-- The character for a single decimal digit. -/
def digitChar (d : ℕ) : Char := Char.ofNat (48 + d)

/-- Big-endian digit characters of a natural number (JS renders 0 as the
single character 0). -/
def natToChars (n : ℕ) : List Char :=
  if n = 0 then ['0'] else ((Nat.digits 10 n).reverse).map digitChar

/-- Left-pad a digit string with zeros to at least the given length. -/
def padZeros (l : List Char) (k : ℕ) : List Char :=
  List.replicate (k - l.length) '0' ++ l

/-- Smallest decimal scale found for a denominator: the first k at most d
with d dividing 10 to the k (0 if none exists in that range; for every
denominator of a decimal rational the range suffices, because a
denominator dividing some power of ten divides 10 to the denominator
itself). -/
def decScale (d : ℕ) : ℕ :=
  (((List.range (d + 1)).filter (fun k => 10 ^ k % d == 0)).headD 0)

/-- Decimal rationals: those with a finite decimal numeral, i.e. whose
reduced denominator divides a power of ten.  Every JS double is a binary
fraction and hence decimal.  The bound 10 ^ q.den makes the predicate
decidable while covering all such denominators. -/
def DecimalQ (q : ℚ) : Prop := (q.den : ℕ) ∣ 10 ^ q.den

instance (q : ℚ) : Decidable (DecimalQ q) := by unfold DecimalQ; infer_instance

/-- Plain decimal rendering of a rational, matching JS number-to-string in
the non-exponent regime: q equals m over 10 to the k with k the decimal
scale of the denominator, rendered as an optional sign, the digits of m,
and a dot placed k digits from the right (with zero left-padding so an
integer part always exists). -/
def renderQChars (q : ℚ) : List Char :=
  let k := decScale q.den
  let m : ℤ := q.num * (((10 ^ k : ℕ) / q.den : ℕ) : ℤ)
  let sign : List Char := if m < 0 then ['-'] else []
  if k = 0 then sign ++ natToChars m.natAbs
  else
    let ds := padZeros (natToChars m.natAbs) (k + 1)
    sign ++ (ds.take (ds.length - k) ++ '.' :: ds.drop (ds.length - k))

/-- Rendering of one JS-number coordinate: NaN renders as the letters
N a N, finite values as their decimal numeral. -/
def numChars (o : Option ℚ) : List Char :=
  match o with
  | some q => renderQChars q
  | none => ['N', 'a', 'N']

/-- The two coordinates of a point as rendered inside a path command. -/
def pairChars (p : JPt) : List Char := numChars p.x ++ ' ' :: numChars p.y

/-- Embedding of generatePathFromPoints (connection-line adjuster):
"M x0 y0" then " L xi yi" per further point; the empty string when fewer
than 2 points are supplied. -/
def generatePathChars (pts : List JPt) : List Char :=
  if pts.length < 2 then []
  else
    match pts with
    | [] => []
    | p :: rest =>
      'M' :: ' ' :: pairChars p ++
        rest.flatMap (fun q => ' ' :: 'L' :: ' ' :: pairChars q)

/-- String wrapper for generatePathChars. -/
def generatePathFromPoints (pts : List JPt) : String :=
  ⟨generatePathChars pts⟩

/-- One attempted match of the regex [ML]\\s*[\\d.-]+\\s*[\\d.-]+ at the
head of the character list, returning the matched substring and the
remainder after it.  Greedy matching with backtracking is collapsed to its
observable outcome: the first [\\d.-]+ greedily takes the maximal run a; if
afterwards no second run can be found the engine gives back one character
of a (shrinking the whitespace between the runs can never help, because
the character following maximal whitespace is not in the class), so the
match succeeds exactly when a second run exists after a, or when a itself
has at least two characters and is split before its last character; in
both cases the consumed substring is the same. -/
def matchCmdAt (cs : List Char) : Option (List Char × List Char) :=
  match cs with
  | [] => none
  | c :: rest =>
    if c == 'M' || c == 'L' then
      let s0 := rest.takeWhile jsWhitespace
      let r1 := rest.dropWhile jsWhitespace
      let a := r1.takeWhile isNumClass
      let r2 := r1.dropWhile isNumClass
      if a.isEmpty then none
      else
        let s1 := r2.takeWhile jsWhitespace
        let r3 := r2.dropWhile jsWhitespace
        let b := r3.takeWhile isNumClass
        let r4 := r3.dropWhile isNumClass
        if !b.isEmpty then some (c :: (s0 ++ a ++ s1 ++ b), r4)
        else if 2 ≤ a.length then some (c :: (s0 ++ a), r2)
        else none
    else none

/-- Global scan of pathData.match(/[ML]\\s*[\\d.-]+\\s*[\\d.-]+/g): attempt
a match at each position, emit it and continue after it, otherwise advance
one character.  Fuel-driven; the initial fuel is the string length and
every step consumes at least one character. -/
def scanCmds : ℕ → List Char → List (List Char)
  | 0, _ => []
  | _, [] => []
  | fuel + 1, c :: rest =>
    match matchCmdAt (c :: rest) with
    | some (cmd, rem) => cmd :: scanCmds fuel rem
    | none => scanCmds fuel rest

/-- Global scan of command.match(/[\\d.-]+/g): the maximal runs of
class characters. -/
def numRuns : ℕ → List Char → List (List Char)
  | 0, _ => []
  | _, [] => []
  | fuel + 1, c :: rest =>
    if isNumClass c then
      ((c :: rest).takeWhile isNumClass) ::
        numRuns fuel ((c :: rest).dropWhile isNumClass)
    else numRuns fuel rest

/-- The body of parsePathData's per-command forEach callback: extract the
command's numeric tokens and push a point holding parseFloat of its first
two tokens whenever at least two tokens are present. -/
def parseStep (points : List JPt) (cmd : List Char) : List JPt :=
  let coords := numRuns cmd.length cmd
  if 2 ≤ coords.length then
    points ++ [⟨parseFloatQ (coords.getD 0 []), parseFloatQ (coords.getD 1 [])⟩]
  else points

/-- Embedding of parsePathData (connection-line adjuster): extract the
command substrings, then fold the per-command callback over them starting
from the empty point list. -/
def parsePathData (s : String) : List JPt :=
  let commands := scanCmds s.data.length s.data
  commands.foldl parseStep []

/-! Supporting lemmas for the serialisation round trip. -/

lemma digitChar_isDigit (d : ℕ) (hd : d < 10) : isDigitC (digitChar d) = true := by
  interval_cases d <;> decide

lemma digitVal_digitChar (d : ℕ) (hd : d < 10) : digitVal (digitChar d) = d := by
  interval_cases d <;> decide

lemma isDigitC_isNumClass (c : Char) (h : isDigitC c = true) :
    isNumClass c = true := by
  simp only [isNumClass, Bool.or_eq_true]
  exact Or.inl (Or.inl h)

lemma isNumClass_not_ws (c : Char) (h : isNumClass c = true) :
    jsWhitespace c = false := by
  by_contra hw
  rw [Bool.not_eq_false] at hw
  simp only [jsWhitespace, Bool.or_eq_true, beq_iff_eq] at hw
  rcases hw with ((rfl | rfl) | rfl) | rfl <;> exact absurd h (by decide)

lemma isNumClass_not_cmd (c : Char) (h : isNumClass c = true) :
    (c == 'M' || c == 'L') = false := by
  by_contra hw
  rw [Bool.not_eq_false, Bool.or_eq_true, beq_iff_eq, beq_iff_eq] at hw
  rcases hw with rfl | rfl <;> exact absurd h (by decide)

lemma isDigitC_ne_minus (c : Char) (h : isDigitC c = true) : c ≠ '-' := by
  rintro rfl; exact absurd h (by decide)

lemma takeWhile_all_append (p : Char → Bool) :
    ∀ (l r : List Char), (∀ c ∈ l, p c = true) →
      (l ++ r).takeWhile p = l ++ r.takeWhile p := by
  intro l
  induction l with
  | nil => intro r _; rfl
  | cons a l ih =>
    intro r hl
    have ha := hl a (List.mem_cons_self a l)
    simp only [List.cons_append, List.takeWhile_cons, ha, if_true]
    rw [ih r (fun c hc => hl c (List.mem_cons_of_mem a hc))]

lemma dropWhile_all_append (p : Char → Bool) :
    ∀ (l r : List Char), (∀ c ∈ l, p c = true) →
      (l ++ r).dropWhile p = r.dropWhile p := by
  intro l
  induction l with
  | nil => intro r _; rfl
  | cons a l ih =>
    intro r hl
    have ha := hl a (List.mem_cons_self a l)
    simp only [List.cons_append, List.dropWhile_cons, ha, if_true]
    exact ih r (fun c hc => hl c (List.mem_cons_of_mem a hc))

lemma takeWhile_all (p : Char → Bool) (l : List Char)
    (hl : ∀ c ∈ l, p c = true) : l.takeWhile p = l :=
  List.takeWhile_eq_self_iff.mpr hl

lemma dropWhile_all (p : Char → Bool) (l : List Char)
    (hl : ∀ c ∈ l, p c = true) : l.dropWhile p = [] := by
  simpa using dropWhile_all_append p l [] hl

lemma takeWhile_stop (p : Char → Bool) (x : Char) (r : List Char)
    (hx : p x = false) : (x :: r).takeWhile p = [] := by
  simp [List.takeWhile_cons, hx]

lemma dropWhile_stop (p : Char → Bool) (x : Char) (r : List Char)
    (hx : p x = false) : (x :: r).dropWhile p = x :: r := by
  simp [List.dropWhile_cons, hx]

lemma natFrom_go (l : List Char) : ∀ acc : ℕ,
    l.foldl (fun a c => 10 * a + digitVal c) acc =
      acc * 10 ^ l.length + l.foldl (fun a c => 10 * a + digitVal c) 0 := by
  induction l with
  | nil => intro acc; simp
  | cons c l ih =>
    intro acc
    simp only [List.foldl_cons, List.length_cons]
    rw [ih (10 * acc + digitVal c), ih (10 * 0 + digitVal c)]
    ring

lemma natFrom_append (A B : List Char) :
    natFromDigitsChars (A ++ B) =
      natFromDigitsChars A * 10 ^ B.length + natFromDigitsChars B := by
  unfold natFromDigitsChars
  rw [List.foldl_append]
  exact natFrom_go B _

lemma natFrom_replicate_zeros_aux (z : ℕ) :
    natFromDigitsChars (List.replicate z '0') = 0 := by
  induction z with
  | zero => rfl
  | succ z ih =>
    rw [List.replicate_succ]
    show List.foldl _ 0 ('0' :: List.replicate z '0') = 0
    rw [List.foldl_cons]
    have h0 : (10 * 0 + digitVal '0') = 0 := by decide
    rw [h0]
    exact ih

lemma natFrom_replicate_zeros (z : ℕ) (l : List Char) :
    natFromDigitsChars (List.replicate z '0' ++ l) = natFromDigitsChars l := by
  rw [natFrom_append, natFrom_replicate_zeros_aux]
  simp

lemma natFrom_mapDigits (ds : List ℕ) (hds : ∀ d ∈ ds, d < 10) :
    natFromDigitsChars ((ds.reverse).map digitChar) = Nat.ofDigits 10 ds := by
  induction ds with
  | nil => rfl
  | cons d ds ih =>
    have hd : d < 10 := hds d (List.mem_cons_self d ds)
    rw [List.reverse_cons, List.map_append, natFrom_append]
    have h1 : natFromDigitsChars [digitChar d] = d := by
      show List.foldl _ 0 [digitChar d] = d
      simp [digitVal_digitChar d hd]
    simp only [List.map_cons, List.map_nil, List.length_cons, List.length_nil, h1]
    rw [ih (fun e he => hds e (List.mem_cons_of_mem d he)), Nat.ofDigits_cons]
    ring

lemma natFrom_natToChars (n : ℕ) : natFromDigitsChars (natToChars n) = n := by
  unfold natToChars
  split_ifs with h
  · subst h; decide
  · rw [natFrom_mapDigits _ (fun d hd => Nat.digits_lt_base (by norm_num) hd)]
    exact Nat.ofDigits_digits 10 n

lemma natToChars_ne_nil (n : ℕ) : natToChars n ≠ [] := by
  unfold natToChars
  split_ifs with h
  · simp
  · have hne : Nat.digits 10 n ≠ [] := Nat.digits_ne_nil_iff_ne_zero.mpr h
    simp [hne]

lemma natToChars_digits (n : ℕ) : ∀ c ∈ natToChars n, isDigitC c = true := by
  unfold natToChars
  split_ifs with h
  · intro c hc
    simp only [List.mem_singleton] at hc
    subst hc; decide
  · intro c hc
    simp only [List.mem_map, List.mem_reverse] at hc
    obtain ⟨d, hd, rfl⟩ := hc
    exact digitChar_isDigit d (Nat.digits_lt_base (by norm_num) hd)

lemma beq_some_false (c d : Char) (h : c ≠ d) :
    ((some c == some d) : Bool) = false := by
  simp [h]

lemma parseFloatQ_digits_pos (l : List Char) (hl : ∀ c ∈ l, isDigitC c = true)
    (hne : l ≠ []) : parseFloatQ l = some (natFromDigitsChars l : ℚ) := by
  obtain ⟨c, t, rfl⟩ : ∃ c t, l = c :: t := by
    cases l with
    | nil => exact absurd rfl hne
    | cons c t => exact ⟨c, t, rfl⟩
  have hc := hl c (List.mem_cons_self c t)
  unfold parseFloatQ
  simp only [List.head?_cons, beq_some_false c '-' (isDigitC_ne_minus c hc),
    if_false, Bool.false_eq_true]
  rw [takeWhile_all _ _ hl, dropWhile_all _ _ hl]
  simp only [List.head?_nil, List.isEmpty_cons, Bool.false_and, if_false,
    Bool.false_eq_true]
  norm_num
  rfl

lemma parseFloatQ_digits_neg (l : List Char) (hl : ∀ c ∈ l, isDigitC c = true)
    (hne : l ≠ []) :
    parseFloatQ ('-' :: l) = some (-(natFromDigitsChars l : ℚ)) := by
  have hLe : l.isEmpty = false := by
    cases l with
    | nil => exact absurd rfl hne
    | cons a t => rfl
  have hnone : (((none : Option Char)) == some '.') = false := rfl
  unfold parseFloatQ
  simp only [List.head?_cons, List.tail_cons, beq_self_eq_true, if_true]
  rw [takeWhile_all _ _ hl, dropWhile_all _ _ hl]
  simp only [List.head?_nil, hnone, Bool.false_eq_true, if_false, hLe,
    Bool.false_and]
  norm_num [natFromDigitsChars]

lemma parseFloatQ_dot_pos (A B : List Char)
    (hA : ∀ c ∈ A, isDigitC c = true) (hB : ∀ c ∈ B, isDigitC c = true)
    (hne : A ≠ []) :
    parseFloatQ (A ++ '.' :: B) =
      some ((natFromDigitsChars A : ℚ) +
        (natFromDigitsChars B : ℚ) / (10 : ℚ) ^ B.length) := by
  obtain ⟨c, t, rfl⟩ : ∃ c t, A = c :: t := by
    cases A with
    | nil => exact absurd rfl hne
    | cons c t => exact ⟨c, t, rfl⟩
  have hc := hA c (List.mem_cons_self c t)
  unfold parseFloatQ
  simp only [List.cons_append, List.head?_cons,
    beq_some_false c '-' (isDigitC_ne_minus c hc), if_false, Bool.false_eq_true]
  rw [← List.cons_append, takeWhile_all_append _ _ _ hA,
    dropWhile_all_append _ _ _ hA, takeWhile_stop _ _ _ (by decide),
    dropWhile_stop _ _ _ (by decide)]
  simp only [List.head?_cons, beq_self_eq_true, if_true, List.tail_cons,
    List.append_nil]
  rw [takeWhile_all _ _ hB]
  simp only [List.isEmpty_cons, Bool.false_and, if_false, Bool.false_eq_true]

lemma parseFloatQ_dot_neg (A B : List Char)
    (hA : ∀ c ∈ A, isDigitC c = true) (hB : ∀ c ∈ B, isDigitC c = true)
    (hne : A ≠ []) :
    parseFloatQ ('-' :: (A ++ '.' :: B)) =
      some (-((natFromDigitsChars A : ℚ) +
        (natFromDigitsChars B : ℚ) / (10 : ℚ) ^ B.length)) := by
  unfold parseFloatQ
  simp only [List.head?_cons, List.tail_cons, beq_self_eq_true, if_true]
  rw [takeWhile_all_append _ _ _ hA, dropWhile_all_append _ _ _ hA,
    takeWhile_stop _ _ _ (by decide), dropWhile_stop _ _ _ (by decide)]
  simp only [List.head?_cons, beq_self_eq_true, if_true, List.tail_cons,
    List.append_nil]
  rw [takeWhile_all _ _ hB]
  have hAe : A.isEmpty = false := by
    cases A with
    | nil => exact absurd rfl hne
    | cons a t => rfl
  simp only [hAe, Bool.false_and, Bool.false_eq_true, if_false]

lemma decScale_dvd (q : ℚ) (h : DecimalQ q) :
    (q.den : ℕ) ∣ 10 ^ decScale q.den := by
  have hd0 : 0 < q.den := q.pos
  have hmem : q.den ∈ (List.range (q.den + 1)).filter
      (fun k => 10 ^ k % q.den == 0) := by
    refine List.mem_filter.mpr ⟨List.mem_range.mpr (by omega), ?_⟩
    rw [beq_iff_eq]
    exact Nat.dvd_iff_mod_eq_zero.mp h
  cases hf : (List.range (q.den + 1)).filter (fun k => 10 ^ k % q.den == 0) with
  | nil => rw [hf] at hmem; exact absurd hmem (List.not_mem_nil _)
  | cons a t =>
    have ha : a ∈ (List.range (q.den + 1)).filter
        (fun k => 10 ^ k % q.den == 0) := by
      rw [hf]; exact List.mem_cons_self a t
    have hpa := (List.mem_filter.mp ha).2
    rw [beq_iff_eq] at hpa
    have : decScale q.den = a := by unfold decScale; rw [hf]; rfl
    rw [this]
    exact Nat.dvd_iff_mod_eq_zero.mpr hpa

lemma intAbs_cast_neg (m : ℤ) (hm : m < 0) :
    ((m.natAbs : ℕ) : ℚ) = -((m : ℤ) : ℚ) := by
  have h : (m.natAbs : ℤ) = -m := Int.ofNat_natAbs_of_nonpos (le_of_lt hm)
  calc ((m.natAbs : ℕ) : ℚ) = (((m.natAbs : ℤ)) : ℚ) := (Int.cast_natCast _).symm
    _ = ((-m : ℤ) : ℚ) := by rw [h]
    _ = -((m : ℤ) : ℚ) := Int.cast_neg m

lemma intAbs_cast_nonneg (m : ℤ) (hm : 0 ≤ m) :
    ((m.natAbs : ℕ) : ℚ) = ((m : ℤ) : ℚ) := by
  have h : (m.natAbs : ℤ) = m := Int.natAbs_of_nonneg hm
  calc ((m.natAbs : ℕ) : ℚ) = (((m.natAbs : ℤ)) : ℚ) := (Int.cast_natCast _).symm
    _ = ((m : ℤ) : ℚ) := by rw [h]

lemma renderM_cast (q : ℚ) (h : DecimalQ q) :
    ((q.num * (((10 ^ decScale q.den : ℕ) / q.den : ℕ) : ℤ) : ℤ) : ℚ) =
      q * 10 ^ decScale q.den := by
  have hdvd := decScale_dvd q h
  set c : ℕ := (10 ^ decScale q.den : ℕ) / q.den with hcdef
  have hcc : ((c : ℕ) : ℚ) * ((q.den : ℕ) : ℚ) = (10 : ℚ) ^ decScale q.den := by
    have hmc := Nat.div_mul_cancel hdvd
    rw [← hcdef] at hmc
    exact_mod_cast congrArg (Nat.cast : ℕ → ℚ) hmc
  have hden0 : ((q.den : ℕ) : ℚ) ≠ 0 := by exact_mod_cast q.den_nz
  have hnum : (q.num : ℚ) = q * ((q.den : ℕ) : ℚ) := by
    rw [eq_comm, ← eq_div_iff hden0, Rat.num_div_den]
  calc ((q.num * (c : ℤ) : ℤ) : ℚ) = (q.num : ℚ) * ((c : ℕ) : ℚ) := by
        push_cast; ring
    _ = q * ((q.den : ℕ) : ℚ) * ((c : ℕ) : ℚ) := by rw [hnum]
    _ = q * (((c : ℕ) : ℚ) * ((q.den : ℕ) : ℚ)) := by ring
    _ = q * 10 ^ decScale q.den := by rw [hcc]

lemma padZeros_digits (l : List Char) (k : ℕ)
    (hl : ∀ c ∈ l, isDigitC c = true) :
    ∀ c ∈ padZeros l k, isDigitC c = true := by
  intro c hc
  unfold padZeros at hc
  rcases List.mem_append.mp hc with hc | hc
  · rw [List.eq_of_mem_replicate hc]; decide
  · exact hl c hc

lemma padZeros_length (l : List Char) (k : ℕ) :
    (padZeros l k).length = max k l.length := by
  unfold padZeros
  rw [List.length_append, List.length_replicate]
  omega

lemma natFrom_padZeros (l : List Char) (k : ℕ) :
    natFromDigitsChars (padZeros l k) = natFromDigitsChars l :=
  natFrom_replicate_zeros _ _

/-- Round trip of one number: parseFloat recovers a decimal rational from
its rendered decimal numeral. -/
lemma parseFloatQ_renderQChars (q : ℚ) (h : DecimalQ q) :
    parseFloatQ (renderQChars q) = some q := by
  have hmq := renderM_cast q h
  unfold renderQChars
  set k := decScale q.den with hkdef
  set mI : ℤ := q.num * (((10 ^ k : ℕ) / q.den : ℕ) : ℤ) with hmdef
  by_cases hk0 : k = 0
  · rw [if_pos hk0]
    rw [hk0, pow_zero, mul_one] at hmq
    by_cases hm : mI < 0
    · rw [if_pos hm, List.singleton_append,
        parseFloatQ_digits_neg _ (natToChars_digits _) (natToChars_ne_nil _),
        natFrom_natToChars, intAbs_cast_neg mI hm, hmq, neg_neg]
    · push_neg at hm
      rw [if_neg (not_lt.mpr hm), List.nil_append,
        parseFloatQ_digits_pos _ (natToChars_digits _) (natToChars_ne_nil _),
        natFrom_natToChars, intAbs_cast_nonneg mI hm, hmq]
  · rw [if_neg hk0]
    set ds := padZeros (natToChars mI.natAbs) (k + 1) with hdsdef
    have hdig : ∀ c ∈ ds, isDigitC c = true :=
      padZeros_digits _ _ (natToChars_digits _)
    have hlen : k + 1 ≤ ds.length := by
      rw [hdsdef, padZeros_length]; omega
    have htake_ne : ds.take (ds.length - k) ≠ [] := by
      intro hcon
      have hlt := congrArg List.length hcon
      rw [List.length_take] at hlt
      simp only [List.length_nil] at hlt
      omega
    have htake_dig : ∀ c ∈ ds.take (ds.length - k), isDigitC c = true :=
      fun c hc => hdig c (List.mem_of_mem_take hc)
    have hdrop_dig : ∀ c ∈ ds.drop (ds.length - k), isDigitC c = true :=
      fun c hc => hdig c (List.mem_of_mem_drop hc)
    have hdrop_len : (ds.drop (ds.length - k)).length = k := by
      rw [List.length_drop]; omega
    have hval : natFromDigitsChars (ds.take (ds.length - k)) * 10 ^ k +
        natFromDigitsChars (ds.drop (ds.length - k)) = mI.natAbs := by
      have happ := natFrom_append (ds.take (ds.length - k))
        (ds.drop (ds.length - k))
      rw [List.take_append_drop, hdrop_len] at happ
      rw [← happ, hdsdef, natFrom_padZeros, natFrom_natToChars]
    have hvalQ : (natFromDigitsChars (ds.take (ds.length - k)) : ℚ) * 10 ^ k +
        (natFromDigitsChars (ds.drop (ds.length - k)) : ℚ) = (mI.natAbs : ℚ) := by
      exact_mod_cast congrArg (Nat.cast : ℕ → ℚ) hval
    have h10 : ((10 : ℚ) ^ k) ≠ 0 := by positivity
    have hsplit : (natFromDigitsChars (ds.take (ds.length - k)) : ℚ) +
        (natFromDigitsChars (ds.drop (ds.length - k)) : ℚ) / (10 : ℚ) ^ k =
        (mI.natAbs : ℚ) / (10 : ℚ) ^ k := by
      rw [← hvalQ]
      field_simp
    by_cases hm : mI < 0
    · rw [if_pos hm, List.singleton_append,
        parseFloatQ_dot_neg _ _ htake_dig hdrop_dig htake_ne,
        hdrop_len, hsplit, intAbs_cast_neg mI hm, hmq]
      congr 1
      field_simp
    · push_neg at hm
      rw [if_neg (not_lt.mpr hm), List.nil_append,
        parseFloatQ_dot_pos _ _ htake_dig hdrop_dig htake_ne,
        hdrop_len, hsplit, intAbs_cast_nonneg mI hm, hmq]
      congr 1
      field_simp

lemma renderQChars_class (q : ℚ) :
    ∀ c ∈ renderQChars q, isNumClass c = true := by
  unfold renderQChars
  intro c hc
  by_cases hk0 : decScale q.den = 0 <;> simp only [hk0, if_true, if_false,
      reduceIte] at hc
  · rcases List.mem_append.mp hc with hc | hc
    · split_ifs at hc
      · simp only [List.mem_singleton] at hc; subst hc; decide
      · exact absurd hc (List.not_mem_nil c)
    · exact isDigitC_isNumClass c (natToChars_digits _ c hc)
  · rcases List.mem_append.mp hc with hc | hc
    · split_ifs at hc
      · simp only [List.mem_singleton] at hc; subst hc; decide
      · exact absurd hc (List.not_mem_nil c)
    · rcases List.mem_append.mp hc with hc | hc
      · exact isDigitC_isNumClass c
          (padZeros_digits _ _ (natToChars_digits _) c (List.mem_of_mem_take hc))
      · rcases List.mem_cons.mp hc with rfl | hc
        · decide
        · exact isDigitC_isNumClass c
            (padZeros_digits _ _ (natToChars_digits _) c (List.mem_of_mem_drop hc))

lemma renderQChars_ne_nil (q : ℚ) : renderQChars q ≠ [] := by
  unfold renderQChars
  by_cases hk0 : decScale q.den = 0 <;> simp only [hk0, if_true, if_false,
      reduceIte]
  · intro hcon
    rcases List.append_eq_nil.mp hcon with ⟨-, h2⟩
    exact natToChars_ne_nil _ h2
  · intro hcon
    rcases List.append_eq_nil.mp hcon with ⟨-, h2⟩
    rcases List.append_eq_nil.mp h2 with ⟨-, h3⟩
    exact List.cons_ne_nil _ _ h3

/-- A point whose two coordinates are finite decimal rationals: the shape
of every point produced by the system (pixel coordinates). -/
def DecPt (p : JPt) : Prop :=
  (∃ qx, p.x = some qx ∧ DecimalQ qx) ∧ (∃ qy, p.y = some qy ∧ DecimalQ qy)

lemma numChars_ne_nil_of_some (q : ℚ) : numChars (some q) ≠ [] :=
  renderQChars_ne_nil q

lemma numChars_class_of_some (q : ℚ) :
    ∀ c ∈ numChars (some q), isNumClass c = true :=
  renderQChars_class q

/-- The command substring the scanner recovers for one point. -/
def cmdChars (c0 : Char) (p : JPt) : List Char := c0 :: ' ' :: pairChars p

/-- The character blocks appended for the second and later points. -/
def lBlocks (l : List JPt) : List Char :=
  l.flatMap (fun q => ' ' :: 'L' :: ' ' :: pairChars q)

lemma matchCmdAt_nonCmd (c : Char) (h : (c == 'M' || c == 'L') = false)
    (rest : List Char) : matchCmdAt (c :: rest) = none := by
  simp only [matchCmdAt, h, Bool.false_eq_true, if_false]

lemma matchCmdAt_token (c0 : Char) (hc0 : (c0 == 'M' || c0 == 'L') = true)
    (t1 t2 rest : List Char)
    (ht1 : t1 ≠ []) (ht1c : ∀ c ∈ t1, isNumClass c = true)
    (ht2 : t2 ≠ []) (ht2c : ∀ c ∈ t2, isNumClass c = true)
    (hrest : rest = [] ∨ ∃ r, rest = ' ' :: r) :
    matchCmdAt (c0 :: ' ' :: (t1 ++ ' ' :: (t2 ++ rest))) =
      some (c0 :: ' ' :: (t1 ++ ' ' :: t2), rest) := by
  obtain ⟨a1, t1t, rfl⟩ : ∃ a t, t1 = a :: t := by
    cases t1 with
    | nil => exact absurd rfl ht1
    | cons a t => exact ⟨a, t, rfl⟩
  obtain ⟨a2, t2t, rfl⟩ : ∃ a t, t2 = a :: t := by
    cases t2 with
    | nil => exact absurd rfl ht2
    | cons a t => exact ⟨a, t, rfl⟩
  have ha1 := ht1c a1 (List.mem_cons_self a1 t1t)
  have ha2 := ht2c a2 (List.mem_cons_self a2 t2t)
  have hs0 : List.takeWhile jsWhitespace
      ((a1 :: t1t) ++ ' ' :: ((a2 :: t2t) ++ rest)) = [] := by
    rw [List.cons_append]
    exact takeWhile_stop _ _ _ (isNumClass_not_ws a1 ha1)
  have hr1 : List.dropWhile jsWhitespace
      ((a1 :: t1t) ++ ' ' :: ((a2 :: t2t) ++ rest)) =
      (a1 :: t1t) ++ ' ' :: ((a2 :: t2t) ++ rest) := by
    rw [List.cons_append, dropWhile_stop _ _ _ (isNumClass_not_ws a1 ha1),
      ← List.cons_append]
  have ha : List.takeWhile isNumClass
      ((a1 :: t1t) ++ ' ' :: ((a2 :: t2t) ++ rest)) = a1 :: t1t := by
    rw [takeWhile_all_append _ _ _ ht1c,
      takeWhile_stop _ _ _ (show isNumClass ' ' = false from rfl),
      List.append_nil]
  have hr2 : List.dropWhile isNumClass
      ((a1 :: t1t) ++ ' ' :: ((a2 :: t2t) ++ rest)) =
      ' ' :: ((a2 :: t2t) ++ rest) := by
    rw [dropWhile_all_append _ _ _ ht1c,
      dropWhile_stop _ _ _ (show isNumClass ' ' = false from rfl)]
  have hs1 : List.takeWhile jsWhitespace (' ' :: ((a2 :: t2t) ++ rest)) =
      [' '] := by
    rw [List.takeWhile_cons]
    rw [show jsWhitespace ' ' = true from rfl]
    simp only [if_true, List.cons_append,
      takeWhile_stop _ _ _ (isNumClass_not_ws a2 ha2)]
  have hr3 : List.dropWhile jsWhitespace (' ' :: ((a2 :: t2t) ++ rest)) =
      (a2 :: t2t) ++ rest := by
    rw [List.dropWhile_cons]
    rw [show jsWhitespace ' ' = true from rfl]
    simp only [if_true, List.cons_append,
      dropWhile_stop _ _ _ (isNumClass_not_ws a2 ha2)]
  have hb : List.takeWhile isNumClass ((a2 :: t2t) ++ rest) = a2 :: t2t := by
    rcases hrest with rfl | ⟨r, rfl⟩
    · rw [List.append_nil]; exact takeWhile_all _ _ ht2c
    · rw [takeWhile_all_append _ _ _ ht2c,
        takeWhile_stop _ _ _ (show isNumClass ' ' = false from rfl),
        List.append_nil]
  have hr4 : List.dropWhile isNumClass ((a2 :: t2t) ++ rest) = rest := by
    rcases hrest with rfl | ⟨r, rfl⟩
    · rw [List.append_nil, dropWhile_all _ _ ht2c]
    · rw [dropWhile_all_append _ _ _ ht2c,
        dropWhile_stop _ _ _ (show isNumClass ' ' = false from rfl)]
  simp only [matchCmdAt, hc0, if_true, List.takeWhile_cons, List.dropWhile_cons]
  rw [show jsWhitespace ' ' = true from rfl]
  simp only [if_true, hs0, hr1, ha, hr2, hs1, hr3, hb, hr4]
  simp only [List.isEmpty_cons, Bool.false_eq_true, if_false, Bool.not_false,
    if_true]
  simp [List.append_assoc]

lemma numChars_some_of_DecPt_x (p : JPt) (h : DecPt p) :
    ∃ q, p.x = some q := ⟨h.1.choose, h.1.choose_spec.1⟩

lemma pairChars_shape (p : JPt) (hp : DecPt p) :
    ∃ t1 t2 : List Char, pairChars p = t1 ++ ' ' :: t2 ∧
      t1 ≠ [] ∧ (∀ c ∈ t1, isNumClass c = true) ∧
      t2 ≠ [] ∧ (∀ c ∈ t2, isNumClass c = true) := by
  obtain ⟨⟨qx, hqx, -⟩, ⟨qy, hqy, -⟩⟩ := hp
  refine ⟨numChars p.x, numChars p.y, rfl, ?_, ?_, ?_, ?_⟩
  · rw [hqx]; exact numChars_ne_nil_of_some qx
  · rw [hqx]; exact numChars_class_of_some qx
  · rw [hqy]; exact numChars_ne_nil_of_some qy
  · rw [hqy]; exact numChars_class_of_some qy

lemma scanCmds_nil (fuel : ℕ) : scanCmds fuel [] = [] := by
  cases fuel <;> rfl

lemma lBlocks_shape (l : List JPt) :
    l = [] ∨ ∃ r, lBlocks l = ' ' :: r := by
  cases l with
  | nil => exact Or.inl rfl
  | cons p l =>
    refine Or.inr ⟨'L' :: ' ' :: pairChars p ++ lBlocks l, ?_⟩
    simp [lBlocks]

lemma lBlocks_nil_or_space (l : List JPt) :
    lBlocks l = [] ∨ ∃ r, lBlocks l = ' ' :: r := by
  rcases lBlocks_shape l with rfl | h
  · exact Or.inl rfl
  · exact Or.inr h

lemma scanCmds_skip (fuel : ℕ) (c : Char) (rest : List Char)
    (h : matchCmdAt (c :: rest) = none) :
    scanCmds (fuel + 1) (c :: rest) = scanCmds fuel rest := by
  rw [scanCmds, h]

lemma scanCmds_match (fuel : ℕ) (c : Char) (rest cmd rem : List Char)
    (h : matchCmdAt (c :: rest) = some (cmd, rem)) :
    scanCmds (fuel + 1) (c :: rest) = cmd :: scanCmds fuel rem := by
  rw [scanCmds, h]

/-- Scanning the blocks appended for the later points recovers exactly one
command per point. -/
lemma scanCmds_lBlocks (l : List JPt) (hl : ∀ p ∈ l, DecPt p) :
    ∀ fuel, (lBlocks l).length ≤ fuel →
      scanCmds fuel (lBlocks l) = l.map (cmdChars 'L') := by
  induction l with
  | nil => intro fuel _; exact scanCmds_nil fuel
  | cons p l ih =>
    intro fuel hfuel
    obtain ⟨t1, t2, hpair, ht1, ht1c, ht2, ht2c⟩ :=
      pairChars_shape p (hl p (List.mem_cons_self p l))
    have hblk : lBlocks (p :: l) =
        ' ' :: 'L' :: ' ' :: (t1 ++ ' ' :: (t2 ++ lBlocks l)) := by
      simp only [lBlocks, List.flatMap_cons, hpair]
      simp [List.append_assoc]
    rw [hblk] at hfuel ⊢
    have hlen1 : 1 ≤ t1.length := by
      cases t1 with
      | nil => exact absurd rfl ht1
      | cons a t => simp
    have hlen2 : 1 ≤ t2.length := by
      cases t2 with
      | nil => exact absurd rfl ht2
      | cons a t => simp
    simp only [List.length_cons, List.length_append] at hfuel
    obtain ⟨fuel1, rfl⟩ : ∃ f, fuel = f + 1 := by
      cases fuel with
      | zero => omega
      | succ f => exact ⟨f, rfl⟩
    rw [scanCmds_skip _ _ _ (matchCmdAt_nonCmd ' ' (by decide) _)]
    obtain ⟨fuel2, rfl⟩ : ∃ f, fuel1 = f + 1 := by
      cases fuel1 with
      | zero => omega
      | succ f => exact ⟨f, rfl⟩
    rw [scanCmds_match _ _ _ _ _
      (matchCmdAt_token 'L' (by decide) t1 t2 (lBlocks l) ht1 ht1c ht2 ht2c
        (lBlocks_nil_or_space l))]
    rw [List.map_cons]
    have h1 : ('L' :: ' ' :: (t1 ++ ' ' :: t2)) = cmdChars 'L' p := by
      simp [cmdChars, hpair]
    rw [h1, ih (fun q hq => hl q (List.mem_cons_of_mem p hq)) fuel2 (by omega)]

/-- Scanning a generated path string recovers one command per point. -/
lemma scanCmds_generate (p : JPt) (l : List JPt) (hp : DecPt p)
    (hl : ∀ r ∈ l, DecPt r) (hlne : l ≠ []) :
    scanCmds (generatePathChars (p :: l)).length (generatePathChars (p :: l)) =
      cmdChars 'M' p :: l.map (cmdChars 'L') := by
  obtain ⟨t1, t2, hpair, ht1, ht1c, ht2, ht2c⟩ := pairChars_shape p hp
  have hlen2 : ¬ ((p :: l).length < 2) := by
    cases l with
    | nil => exact absurd rfl hlne
    | cons q l => simp
  have hgen : generatePathChars (p :: l) =
      'M' :: ' ' :: (t1 ++ ' ' :: (t2 ++ lBlocks l)) := by
    unfold generatePathChars
    rw [if_neg hlen2]
    simp only [hpair, lBlocks]
    simp [List.append_assoc]
  rw [hgen]
  simp only [List.length_cons]
  rw [scanCmds_match _ _ _ _ _
    (matchCmdAt_token 'M' (by decide) t1 t2 (lBlocks l) ht1 ht1c ht2 ht2c
      (lBlocks_nil_or_space l))]
  have h1 : ('M' :: ' ' :: (t1 ++ ' ' :: t2)) = cmdChars 'M' p := by
    simp [cmdChars, hpair]
  have hfl : (lBlocks l).length ≤ (t1 ++ ' ' :: (t2 ++ lBlocks l)).length + 1 := by
    simp only [List.length_cons, List.length_append]
    omega
  rw [h1, scanCmds_lBlocks l hl _ hfl]

lemma numRuns_nil (fuel : ℕ) : numRuns fuel [] = [] := by
  cases fuel <;> rfl

lemma numRuns_skip (fuel : ℕ) (c : Char) (rest : List Char)
    (h : isNumClass c = false) :
    numRuns (fuel + 1) (c :: rest) = numRuns fuel rest := by
  rw [numRuns, h]
  simp

lemma numRuns_run (fuel : ℕ) (c : Char) (rest : List Char)
    (h : isNumClass c = true) :
    numRuns (fuel + 1) (c :: rest) =
      ((c :: rest).takeWhile isNumClass) ::
        numRuns fuel ((c :: rest).dropWhile isNumClass) := by
  rw [numRuns, h]
  simp

/-- The inner token extraction of one scanned command yields exactly the
two numeric tokens. -/
lemma numRuns_cmd (c0 : Char) (hc0 : isNumClass c0 = false)
    (t1 t2 : List Char)
    (ht1 : t1 ≠ []) (ht1c : ∀ c ∈ t1, isNumClass c = true)
    (ht2 : t2 ≠ []) (ht2c : ∀ c ∈ t2, isNumClass c = true) :
    ∀ fuel, (c0 :: ' ' :: (t1 ++ ' ' :: t2)).length ≤ fuel →
      numRuns fuel (c0 :: ' ' :: (t1 ++ ' ' :: t2)) = [t1, t2] := by
  intro fuel hfuel
  obtain ⟨a1, t1t, rfl⟩ : ∃ a t, t1 = a :: t := by
    cases t1 with
    | nil => exact absurd rfl ht1
    | cons a t => exact ⟨a, t, rfl⟩
  obtain ⟨a2, t2t, rfl⟩ : ∃ a t, t2 = a :: t := by
    cases t2 with
    | nil => exact absurd rfl ht2
    | cons a t => exact ⟨a, t, rfl⟩
  have ha1 := ht1c a1 (List.mem_cons_self a1 t1t)
  have ha2 := ht2c a2 (List.mem_cons_self a2 t2t)
  simp only [List.length_cons, List.length_append] at hfuel
  obtain ⟨f1, rfl⟩ : ∃ f, fuel = f + 1 := by
    cases fuel with
    | zero => omega
    | succ f => exact ⟨f, rfl⟩
  rw [numRuns_skip _ _ _ hc0]
  obtain ⟨f2, rfl⟩ : ∃ f, f1 = f + 1 := by
    cases f1 with
    | zero => omega
    | succ f => exact ⟨f, rfl⟩
  rw [numRuns_skip _ _ _ (show isNumClass ' ' = false from rfl)]
  obtain ⟨f3, rfl⟩ : ∃ f, f2 = f + 1 := by
    cases f2 with
    | zero => omega
    | succ f => exact ⟨f, rfl⟩
  have hshape : (a1 :: t1t) ++ ' ' :: (a2 :: t2t) =
      a1 :: (t1t ++ ' ' :: (a2 :: t2t)) := by simp
  rw [hshape, numRuns_run _ _ _ ha1, ← hshape]
  rw [takeWhile_all_append _ _ _ ht1c,
    takeWhile_stop _ _ _ (show isNumClass ' ' = false from rfl),
    List.append_nil,
    dropWhile_all_append _ _ _ ht1c,
    dropWhile_stop _ _ _ (show isNumClass ' ' = false from rfl)]
  obtain ⟨f4, rfl⟩ : ∃ f, f3 = f + 1 := by
    cases f3 with
    | zero => omega
    | succ f => exact ⟨f, rfl⟩
  rw [numRuns_skip _ _ _ (show isNumClass ' ' = false from rfl)]
  obtain ⟨f5, rfl⟩ : ∃ f, f4 = f + 1 := by
    cases f4 with
    | zero => omega
    | succ f => exact ⟨f, rfl⟩
  rw [numRuns_run _ _ _ ha2, takeWhile_all _ _ ht2c, dropWhile_all _ _ ht2c,
    numRuns_nil]

/-- One parse step on one scanned command of a decimal point recovers the
point. -/
lemma parseStep_cmdChars (c0 : Char) (hc0 : isNumClass c0 = false)
    (p : JPt) (hp : DecPt p) (acc : List JPt) :
    parseStep acc (cmdChars c0 p) = acc ++ [p] := by
  obtain ⟨⟨qx, hqx, hdx⟩, ⟨qy, hqy, hdy⟩⟩ := hp
  have hruns : numRuns (cmdChars c0 p).length (cmdChars c0 p) =
      [numChars p.x, numChars p.y] := by
    apply numRuns_cmd c0 hc0 (numChars p.x) (numChars p.y)
      (by rw [hqx]; exact numChars_ne_nil_of_some qx)
      (by rw [hqx]; exact numChars_class_of_some qx)
      (by rw [hqy]; exact numChars_ne_nil_of_some qy)
      (by rw [hqy]; exact numChars_class_of_some qy)
      _ (le_refl _)
  have hpx : parseFloatQ (numChars p.x) = some qx := by
    rw [hqx]
    exact parseFloatQ_renderQChars qx hdx
  have hpy : parseFloatQ (numChars p.y) = some qy := by
    rw [hqy]
    exact parseFloatQ_renderQChars qy hdy
  have hp2 : p = ⟨some qx, some qy⟩ := by
    cases p
    simp only [JPt.mk.injEq]
    exact ⟨hqx, hqy⟩
  unfold parseStep
  rw [hruns]
  rw [if_pos (by simp)]
  simp [List.getD, hpx, hpy]
  exact hp2.symm

lemma foldl_parseStep (l : List JPt) (hl : ∀ p ∈ l, DecPt p) :
    ∀ acc : List JPt,
      (l.map (cmdChars 'L')).foldl parseStep acc = acc ++ l := by
  induction l with
  | nil => intro acc; simp
  | cons p l ih =>
    intro acc
    rw [List.map_cons, List.foldl_cons,
      parseStep_cmdChars 'L' (by decide) p (hl p (List.mem_cons_self p l)),
      ih (fun q hq => hl q (List.mem_cons_of_mem p hq))]
    simp

/-- The parse of a generated path string is the original point list: the
round-trip law at the level of the full pipeline, for paths of at least
two points with finite decimal coordinates. -/
lemma parsePathData_generate (pts : List JPt) (h2 : 2 ≤ pts.length)
    (hdec : ∀ p ∈ pts, DecPt p) :
    parsePathData (generatePathFromPoints pts) = pts := by
  obtain ⟨p, l, rfl⟩ : ∃ p l, pts = p :: l := by
    cases pts with
    | nil => simp at h2
    | cons p l => exact ⟨p, l, rfl⟩
  have hlne : l ≠ [] := by
    intro hcon
    rw [hcon] at h2
    simp at h2
  unfold parsePathData generatePathFromPoints
  show (scanCmds (generatePathChars (p :: l)).length
      (generatePathChars (p :: l))).foldl parseStep [] = p :: l
  rw [scanCmds_generate p l (hdec p (List.mem_cons_self p l))
    (fun r hr => hdec r (List.mem_cons_of_mem p hr)) hlne]
  rw [List.foldl_cons,
    parseStep_cmdChars 'M' (by decide) p (hdec p (List.mem_cons_self p l)),
    foldl_parseStep l (fun r hr => hdec r (List.mem_cons_of_mem p hr))]
  simp

/-- C7: the serialize/parse round trip.  For every path of at least two
points whose coordinates are finite decimal rationals (every JS double
within the non-exponent rendering regime is one), parsing the generated
command string yields exactly the original points:
lineStringToPath (pathToLineString p) = p with pathToLineString implemented
by generatePathFromPoints and lineStringToPath by parsePathData. -/
theorem generatePathFromPoints_parsePathData_roundtrip (pts : List JPt)
    (h2 : 2 ≤ pts.length) (hnum : ∀ p ∈ pts, DecPt p) :
    parsePathData (generatePathFromPoints pts) = pts :=
  parsePathData_generate pts h2 hnum

/-- C7 witness: the spec's example path (0,0) (50,0) (50,50) (100,50)
serialises and parses back to the identical 4-point array. -/
theorem generatePathFromPoints_parsePathData_roundtrip_witness :
    parsePathData (generatePathFromPoints
      [⟨some 0, some 0⟩, ⟨some 50, some 0⟩,
       ⟨some 50, some 50⟩, ⟨some 100, some 50⟩]) =
      [⟨some 0, some 0⟩, ⟨some 50, some 0⟩,
       ⟨some 50, some 50⟩, ⟨some 100, some 50⟩] := by
  apply generatePathFromPoints_parsePathData_roundtrip
  · norm_num
  · intro p hp
    fin_cases hp <;>
      exact ⟨⟨_, rfl, by decide⟩, ⟨_, rfl, by decide⟩⟩

/-! The circle renderer's path construction (createConnectionPath and its
helpers).  Record path-point data reaching these functions comes from
parsePathData via the drag-commit, hence the JPt coordinate type. -/

/-- One record of the legacy segments format. -/
structure SegRec where
  type : String
  offset : ℚ
deriving DecidableEq, Repr

/-- The connectionLine value as the renderer consumes it. -/
structure RenderCL where
  isCustom : Bool
  pathPoints : Option (List JPt)
  segments : Option (List SegRec)
deriving DecidableEq, Repr

/-- Embedding of createPathFromPoints (circle renderer): the empty string
for fewer than two points (the source also warns), otherwise the same
M/L string-building loop as generatePathFromPoints. -/
def createPathFromPoints (pathPoints : List JPt) : String :=
  if pathPoints.length < 2 then "" else generatePathFromPoints pathPoints

/-- Raw M/L rendering loop without a length guard, as used by
createCustomConnectionPath (whose point list always has at least two
entries by construction). -/
def renderPathChars (pts : List JPt) : List Char :=
  match pts with
  | [] => []
  | p :: rest =>
    'M' :: ' ' :: pairChars p ++
      rest.flatMap (fun q => ' ' :: 'L' :: ' ' :: pairChars q)

/-- Embedding of createCustomConnectionPath (circle renderer), the
backward-compatible legacy segments format: starting from the default
mid-bend position, each segment record advances the current position by
its offset along y (horizontal) or x (vertical) and contributes one point;
a straightening point is inserted if the last x is not already the end x,
then the end point is appended and the polyline is rendered. -/
def createCustomConnectionPath (startX startY endX endY : ℚ)
    (segments : List SegRec) : String :=
  let init : ℚ × ℚ × List JPt :=
    (startX + (endX - startX) * 0.5, startY, [⟨some startX, some startY⟩])
  let folded := segments.foldl
    (fun st seg =>
      let cx := if seg.type = "horizontal" then st.1
        else if seg.type = "vertical" then st.1 + seg.offset else st.1
      let cy := if seg.type = "horizontal" then st.2.1 + seg.offset
        else st.2.1
      (cx, cy, st.2.2 ++ [⟨some cx, some cy⟩]))
    init
  let pts := folded.2.2
  let lastPt := pts.getLastD ⟨some startX, some startY⟩
  let pts1 := if lastPt.x ≠ some endX then pts ++ [⟨some endX, lastPt.y⟩]
    else pts
  let pts2 := pts1 ++ [⟨some endX, some endY⟩]
  ⟨renderPathChars pts2⟩

/-- Embedding of createConnectionPath (circle renderer): a custom point
list is rendered verbatim when present and nonempty, else a nonempty
legacy segments list is rendered, else the default path (a two-bend
orthogonal connector through the horizontal midpoint, at the start
point's y) is produced from the template
M startX startY L midX startY L midX endY L endX endY. -/
def createConnectionPath (startX startY endX endY : ℚ)
    (connectionLineData : Option RenderCL) : String :=
  let custom : Option String :=
    match connectionLineData with
    | some data =>
      if data.isCustom then
        match data.pathPoints with
        | some pp =>
          if 0 < pp.length then some (createPathFromPoints pp)
          else
            match data.segments with
            | some segs =>
              if 0 < segs.length then
                some (createCustomConnectionPath startX startY endX endY segs)
              else none
            | none => none
        | none =>
          match data.segments with
          | some segs =>
            if 0 < segs.length then
              some (createCustomConnectionPath startX startY endX endY segs)
            else none
          | none => none
      else none
    | none => none
  match custom with
  | some s => s
  | none =>
    let midX := startX + (endX - startX) * 0.5
    ⟨'M' :: ' ' :: (renderQChars startX ++ ' ' :: renderQChars startY) ++
      (' ' :: 'L' :: ' ' :: (renderQChars midX ++ ' ' :: renderQChars startY)) ++
      (' ' :: 'L' :: ' ' :: (renderQChars midX ++ ' ' :: renderQChars endY)) ++
      (' ' :: 'L' :: ' ' :: (renderQChars endX ++ ' ' :: renderQChars endY))⟩

/-- The default branch of createConnectionPath renders exactly the
four-point default path. -/
lemma createConnectionPath_none_eq_default (sx sy ex ey : ℚ) :
    createConnectionPath sx sy ex ey none =
      generatePathFromPoints
        [⟨some sx, some sy⟩, ⟨some (sx + (ex - sx) * 0.5), some sy⟩,
         ⟨some (sx + (ex - sx) * 0.5), some ey⟩, ⟨some ex, some ey⟩] := by
  unfold createConnectionPath generatePathFromPoints generatePathChars
  rw [if_neg (by norm_num)]
  simp only [pairChars, numChars, List.flatMap_cons, List.flatMap_nil]
  congr 1
  simp [List.append_assoc]

/-- C8: default path synthesis.  With no custom data,
createConnectionPath produces exactly the rendering of the four points
[start, (mid, startY), (mid, endY), end] with mid the horizontal midpoint,
and in particular for (0,0) to (100,50) the string parses back to the
points (0,0) (50,0) (50,50) (100,50). -/
theorem createConnectionPath_default_spec :
    (∀ sx sy ex ey : ℚ, createConnectionPath sx sy ex ey none =
      generatePathFromPoints
        [⟨some sx, some sy⟩, ⟨some (sx + (ex - sx) * 0.5), some sy⟩,
         ⟨some (sx + (ex - sx) * 0.5), some ey⟩, ⟨some ex, some ey⟩]) ∧
    parsePathData (createConnectionPath 0 0 100 50 none) =
      [⟨some 0, some 0⟩, ⟨some 50, some 0⟩, ⟨some 50, some 50⟩,
       ⟨some 100, some 50⟩] := by
  refine ⟨createConnectionPath_none_eq_default, ?_⟩
  rw [createConnectionPath_none_eq_default]
  have hm : (0 : ℚ) + (100 - 0) * 0.5 = 50 := by norm_num
  rw [hm]
  apply parsePathData_generate
  · norm_num
  · intro p hp
    fin_cases hp <;> exact ⟨⟨_, rfl, by decide⟩, ⟨_, rfl, by decide⟩⟩

/-! The adjustment controller (connection-line adjuster).  NaN-propagating
helpers model JS arithmetic on possibly-NaN values: any operation on NaN
yields NaN (none), and any comparison involving NaN is false. -/

/-- JS addition of a possibly-NaN value and a finite value. -/
def oaddc (a : Option ℚ) (b : ℚ) : Option ℚ := a.map (fun v => v + b)

/-- JS subtraction of a finite value from a possibly-NaN value. -/
def osubc (a : Option ℚ) (b : ℚ) : Option ℚ := a.map (fun v => v - b)

/-- JS midpoint (a + b) / 2 of two possibly-NaN values. -/
def omid (a b : Option ℚ) : Option ℚ :=
  match a, b with
  | some x, some y => some ((x + y) / 2)
  | _, _ => none

/-- JS test Math.abs(a - b) < eps; false whenever either side is NaN. -/
def oabsLt (a b : Option ℚ) (eps : ℚ) : Bool :=
  match a, b with
  | some x, some y => decide (|x - y| < eps)
  | _, _ => false

/-- Segment i of a path is classified horizontal: |startY - endY| < 5. -/
def segIsHorizontal (pts : List JPt) (i : ℕ) : Bool :=
  oabsLt (pts.getD i default).y (pts.getD (i + 1) default).y 5

/-- Segment i of a path is classified vertical: |startX - endX| < 5. -/
def segIsVertical (pts : List JPt) (i : ℕ) : Bool :=
  oabsLt (pts.getD i default).x (pts.getD (i + 1) default).x 5

/-- A control handle as created by createControlHandle: the rect element's
x and y attributes (midpoint minus half the 8-pixel side), the segment
index, owning record id and the axis classification. -/
structure Handle where
  attrX : Option ℚ
  attrY : Option ℚ
  segmentIndex : ℕ
  recordId : String
  isHorizontal : Bool
  isVertical : Bool
deriving DecidableEq, Repr

/-- Embedding of createControlHandle: the handle rect is placed at
(x - 4, y - 4) so its 8 by 8 body is centred on the given midpoint. -/
def createControlHandle (x y : Option ℚ) (segmentIndex : ℕ)
    (recordId : String) (isHorizontal isVertical : Bool) : Handle :=
  ⟨osubc x 4, osubc y 4, segmentIndex, recordId, isHorizontal, isVertical⟩

/-- Embedding of createSegmentControlHandles: one handle per segment,
positioned at the segment midpoint, classified by the 5-pixel tolerance. -/
def createSegmentControlHandles (pathPoints : List JPt) (recordId : String) :
    List Handle :=
  (List.range (pathPoints.length - 1)).map (fun i =>
    let startPoint := pathPoints.getD i default
    let endPoint := pathPoints.getD (i + 1) default
    let midX := omid startPoint.x endPoint.x
    let midY := omid startPoint.y endPoint.y
    createControlHandle midX midY i recordId
      (segIsHorizontal pathPoints i) (segIsVertical pathPoints i))

/-- The controller state: the selected record id, the cached baseline path
points and the rendered handles. -/
structure AdjusterState where
  selectedRecordId : Option String
  originalPathPoints : Option (List JPt)
  handles : List Handle
deriving DecidableEq, Repr

/-- Embedding of hideControlHandles: clears the handle group, the selected
record id and the cached baseline. -/
def hideControlHandles (st : AdjusterState) : AdjusterState :=
  { st with handles := [], selectedRecordId := none, originalPathPoints := none }

/-- Embedding of showControlHandles.  The DOM is modelled by a query
function from record id to the connector element's d attribute (outer none:
no connector element; inner none: no d attribute).  The source assigns
selectedRecordId := recordId and then invokes hideControlHandles, which
resets selectedRecordId to null (and clears the baseline), so the
assignment is immediately overwritten; afterwards the path is read, parsed,
and on at least 2 points the baseline is cached and the per-segment handles
are created — without selectedRecordId ever being restored. -/
def showControlHandles (st : AdjusterState) (recordId : String)
    (connectorPathAttr : String → Option (Option String)) : AdjusterState :=
  let st2 := hideControlHandles { st with selectedRecordId := some recordId }
  match connectorPathAttr recordId with
  | none => st2
  | some none => st2
  | some (some pathData) =>
    if pathData = "" then st2
    else
      let pathPoints := parsePathData pathData
      if pathPoints.length < 2 then st2
      else { st2 with originalPathPoints := some pathPoints,
                      handles := createSegmentControlHandles pathPoints recordId }

/-- In-place update pathPoints[i].y = v of the i-th point object. -/
def setPtY (v : ℚ) : List JPt → ℕ → List JPt
  | [], _ => []
  | p :: rest, 0 => { p with y := some v } :: rest
  | p :: rest, Nat.succ i => p :: setPtY v rest i

/-- In-place update pathPoints[i].x = v of the i-th point object. -/
def setPtX (v : ℚ) : List JPt → ℕ → List JPt
  | [], _ => []
  | p :: rest, 0 => { p with x := some v } :: rest
  | p :: rest, Nat.succ i => p :: setPtX v rest i

/-- Embedding of updateConnectionPath.  The source copies the baseline
array with a spread, but the spread copies only the array: the point
OBJECTS are shared between the copy and this.originalPathPoints, so the
in-place coordinate assignments below are visible through the baseline.
The result is therefore a pair (content of this.originalPathPoints after
the call, d attribute of the connector after the call); when the guard
passes, the first component is the mutated point list, not the input. -/
def updateConnectionPath (originalPathPoints : Option (List JPt))
    (connectorD : Option String) (segmentIndex : ℕ) (newX newY : ℚ)
    (isHorizontal isVertical : Bool) : Option (List JPt) × Option String :=
  match connectorD, originalPathPoints with
  | some d, some orig =>
    if segmentIndex < orig.length - 1 then
      let pts :=
        if isHorizontal then
          setPtY newY (setPtY newY orig segmentIndex) (segmentIndex + 1)
        else if isVertical then
          setPtX newX (setPtX newX orig segmentIndex) (segmentIndex + 1)
        else orig
      (some pts, some (generatePathFromPoints pts))
    else (some orig, some d)
  | _, _ => (originalPathPoints, connectorD)

/-- Orthogonality within a tolerance: every consecutive point pair differs
in at most one coordinate, the other moving by less than eps (comparisons
with NaN are false, so a NaN path is never orthogonal). -/
def OrthoPathB (eps : ℚ) (pts : List JPt) : Bool :=
  (List.range (pts.length - 1)).all (fun i =>
    oabsLt (pts.getD i default).x (pts.getD (i + 1) default).x eps ||
    oabsLt (pts.getD i default).y (pts.getD (i + 1) default).y eps)

/-- Exact orthogonality: every consecutive point pair agrees exactly in at
least one coordinate. -/
def StrictOrtho (pts : List JPt) : Prop :=
  ∀ i, i + 1 < pts.length →
    (pts.getD i default).x = (pts.getD (i + 1) default).x ∨
    (pts.getD i default).y = (pts.getD (i + 1) default).y

lemma setPtY_length (v : ℚ) : ∀ (l : List JPt) (i : ℕ),
    (setPtY v l i).length = l.length := by
  intro l
  induction l with
  | nil => intro i; cases i <;> rfl
  | cons p rest ih =>
    intro i
    cases i with
    | zero => rfl
    | succ i => simp only [setPtY, List.length_cons, ih i]

lemma setPtX_length (v : ℚ) : ∀ (l : List JPt) (i : ℕ),
    (setPtX v l i).length = l.length := by
  intro l
  induction l with
  | nil => intro i; cases i <;> rfl
  | cons p rest ih =>
    intro i
    cases i with
    | zero => rfl
    | succ i => simp only [setPtX, List.length_cons, ih i]

lemma setPtY_getElem_ne (v : ℚ) : ∀ (l : List JPt) (i j : ℕ), j ≠ i →
    (setPtY v l i)[j]? = l[j]? := by
  intro l
  induction l with
  | nil => intro i j _; cases i <;> rfl
  | cons p rest ih =>
    intro i j hji
    cases i with
    | zero =>
      cases j with
      | zero => exact absurd rfl hji
      | succ j => simp [setPtY]
    | succ i =>
      cases j with
      | zero => simp [setPtY]
      | succ j =>
        simp only [setPtY, List.getElem?_cons_succ]
        exact ih i j (fun hc => hji (by rw [hc]))

lemma setPtX_getElem_ne (v : ℚ) : ∀ (l : List JPt) (i j : ℕ), j ≠ i →
    (setPtX v l i)[j]? = l[j]? := by
  intro l
  induction l with
  | nil => intro i j _; cases i <;> rfl
  | cons p rest ih =>
    intro i j hji
    cases i with
    | zero =>
      cases j with
      | zero => exact absurd rfl hji
      | succ j => simp [setPtX]
    | succ i =>
      cases j with
      | zero => simp [setPtX]
      | succ j =>
        simp only [setPtX, List.getElem?_cons_succ]
        exact ih i j (fun hc => hji (by rw [hc]))

lemma setPtY_getElem_eq (v : ℚ) : ∀ (l : List JPt) (i : ℕ),
    (setPtY v l i)[i]? = (l[i]?).map (fun p => { p with y := some v }) := by
  intro l
  induction l with
  | nil => intro i; cases i <;> rfl
  | cons p rest ih =>
    intro i
    cases i with
    | zero => simp [setPtY]
    | succ i =>
      simp only [setPtY, List.getElem?_cons_succ]
      exact ih i

lemma setPtX_getElem_eq (v : ℚ) : ∀ (l : List JPt) (i : ℕ),
    (setPtX v l i)[i]? = (l[i]?).map (fun p => { p with x := some v }) := by
  intro l
  induction l with
  | nil => intro i; cases i <;> rfl
  | cons p rest ih =>
    intro i
    cases i with
    | zero => simp [setPtX]
    | succ i =>
      simp only [setPtX, List.getElem?_cons_succ]
      exact ih i

lemma getD_of_getElem (l : List JPt) (n : ℕ) (a : JPt) (h : l[n]? = some a) :
    l.getD n default = a := by
  rw [List.getD_eq_getElem?_getD, h]
  rfl

lemma getElem?_eq_some_getD (l : List JPt) (n : ℕ) (h : n < l.length) :
    l[n]? = some (l.getD n default) := by
  rw [List.getElem?_eq_getElem h, List.getD_eq_getElem l default h]

/-- C4 (amended): dragging a segment handle.  When segment i is classified
horizontal (respectively vertical, with the horizontal test failing, since
the source checks horizontal first), updateConnectionPath writes the new
perpendicular coordinate v into BOTH endpoints i and i+1, leaves every
other point untouched and preserves the path length, so consecutive
segments keep sharing their endpoints and no gap is introduced; and IF the
input path is exactly orthogonal AND the segments adjacent to the dragged
segment are exactly perpendicular to it (equal x across the neighbour pair
for a horizontal drag, equal y for a vertical drag), the resulting path is
still exactly orthogonal.  Without the perpendicular-neighbour condition
orthogonality can be destroyed, see the counterexample. -/
theorem updateConnectionPath_drag_spec :
    (∀ (pts : List JPt) (d : String) (i : ℕ) (x v : ℚ),
      i + 1 < pts.length →
      segIsHorizontal pts i = true →
      ∃ pts2 : List JPt,
        updateConnectionPath (some pts) (some d) i x v
          (segIsHorizontal pts i) (segIsVertical pts i) =
          (some pts2, some (generatePathFromPoints pts2)) ∧
        pts2.length = pts.length ∧
        (∀ p, pts[i]? = some p → pts2[i]? = some { p with y := some v }) ∧
        (∀ p, pts[i+1]? = some p → pts2[i+1]? = some { p with y := some v }) ∧
        (∀ j, j ≠ i → j ≠ i + 1 → pts2[j]? = pts[j]?) ∧
        (StrictOrtho pts →
          (1 ≤ i → (pts.getD (i-1) default).x = (pts.getD i default).x) →
          (i + 2 < pts.length →
            (pts.getD (i+1) default).x = (pts.getD (i+2) default).x) →
          StrictOrtho pts2)) ∧
    (∀ (pts : List JPt) (d : String) (i : ℕ) (x v : ℚ),
      i + 1 < pts.length →
      segIsHorizontal pts i = false →
      segIsVertical pts i = true →
      ∃ pts2 : List JPt,
        updateConnectionPath (some pts) (some d) i x v
          (segIsHorizontal pts i) (segIsVertical pts i) =
          (some pts2, some (generatePathFromPoints pts2)) ∧
        pts2.length = pts.length ∧
        (∀ p, pts[i]? = some p → pts2[i]? = some { p with x := some x }) ∧
        (∀ p, pts[i+1]? = some p → pts2[i+1]? = some { p with x := some x }) ∧
        (∀ j, j ≠ i → j ≠ i + 1 → pts2[j]? = pts[j]?) ∧
        (StrictOrtho pts →
          (1 ≤ i → (pts.getD (i-1) default).y = (pts.getD i default).y) →
          (i + 2 < pts.length →
            (pts.getD (i+1) default).y = (pts.getD (i+2) default).y) →
          StrictOrtho pts2)) := by
  constructor
  · intro pts d i x v hlen hH
    set pts2 := setPtY v (setPtY v pts i) (i + 1) with hpts2
    have hlen2 : pts2.length = pts.length := by
      rw [hpts2, setPtY_length, setPtY_length]
    have hat_i : ∀ p, pts[i]? = some p →
        pts2[i]? = some { p with y := some v } := by
      intro p hp
      rw [hpts2, setPtY_getElem_ne v _ (i+1) i (by omega), setPtY_getElem_eq, hp]
      rfl
    have hat_i1 : ∀ p, pts[i+1]? = some p →
        pts2[i+1]? = some { p with y := some v } := by
      intro p hp
      rw [hpts2, setPtY_getElem_eq, setPtY_getElem_ne v _ i (i+1) (by omega), hp]
      rfl
    have hother : ∀ j, j ≠ i → j ≠ i + 1 → pts2[j]? = pts[j]? := by
      intro j hji hji1
      rw [hpts2, setPtY_getElem_ne v _ (i+1) j hji1, setPtY_getElem_ne v _ i j hji]
    refine ⟨pts2, ?_, hlen2, hat_i, hat_i1, hother, ?_⟩
    · simp only [updateConnectionPath, hH, reduceIte]
      rw [if_pos (show i < pts.length - 1 from by omega)]
    · intro hOrtho hprev hnext
      have eD : ∀ (l : List JPt) (n : ℕ),
          l.getD n default = (l[n]?).getD default :=
        fun l n => List.getD_eq_getElem?_getD l n default
      have e_i : pts2.getD i default =
          { pts.getD i default with y := some v } := by
        rw [eD, hat_i _ (getElem?_eq_some_getD pts i (by omega))]
        rfl
      have e_i1 : pts2.getD (i+1) default =
          { pts.getD (i+1) default with y := some v } := by
        rw [eD, hat_i1 _ (getElem?_eq_some_getD pts (i+1) (by omega))]
        rfl
      have e_other : ∀ j, j ≠ i → j ≠ i + 1 →
          pts2.getD j default = pts.getD j default := by
        intro j h1 h2
        rw [eD, hother j h1 h2, ← eD]
      intro j hj
      rw [hlen2] at hj
      by_cases hji : j = i
      · subst hji
        refine Or.inr ?_
        rw [e_i, e_i1]
      · by_cases hji1 : j + 1 = i
        · refine Or.inl ?_
          have hj_ne : j ≠ i + 1 := by omega
          rw [e_other j hji hj_ne, hji1, e_i]
          have := hprev (by omega)
          have hj_eq : i - 1 = j := by omega
          rw [hj_eq] at this
          exact this
        · by_cases hji2 : j = i + 1
          · subst hji2
            refine Or.inl ?_
            rw [e_i1, e_other (i+1+1) (by omega) (by omega)]
            exact hnext (by omega)
          · have h1 : j + 1 ≠ i := hji1
            have h2 : j + 1 ≠ i + 1 := by omega
            rw [e_other j hji hji2, e_other (j+1) h1 h2]
            exact hOrtho j hj
  · intro pts d i x v hlen hH hV
    set pts2 := setPtX x (setPtX x pts i) (i + 1) with hpts2
    have hlen2 : pts2.length = pts.length := by
      rw [hpts2, setPtX_length, setPtX_length]
    have hat_i : ∀ p, pts[i]? = some p →
        pts2[i]? = some { p with x := some x } := by
      intro p hp
      rw [hpts2, setPtX_getElem_ne x _ (i+1) i (by omega), setPtX_getElem_eq, hp]
      rfl
    have hat_i1 : ∀ p, pts[i+1]? = some p →
        pts2[i+1]? = some { p with x := some x } := by
      intro p hp
      rw [hpts2, setPtX_getElem_eq, setPtX_getElem_ne x _ i (i+1) (by omega), hp]
      rfl
    have hother : ∀ j, j ≠ i → j ≠ i + 1 → pts2[j]? = pts[j]? := by
      intro j hji hji1
      rw [hpts2, setPtX_getElem_ne x _ (i+1) j hji1, setPtX_getElem_ne x _ i j hji]
    refine ⟨pts2, ?_, hlen2, hat_i, hat_i1, hother, ?_⟩
    · simp only [updateConnectionPath, hH, hV, Bool.false_eq_true, reduceIte]
      rw [if_pos (show i < pts.length - 1 from by omega)]
    · intro hOrtho hprev hnext
      have eD : ∀ (l : List JPt) (n : ℕ),
          l.getD n default = (l[n]?).getD default :=
        fun l n => List.getD_eq_getElem?_getD l n default
      have e_i : pts2.getD i default =
          { pts.getD i default with x := some x } := by
        rw [eD, hat_i _ (getElem?_eq_some_getD pts i (by omega))]
        rfl
      have e_i1 : pts2.getD (i+1) default =
          { pts.getD (i+1) default with x := some x } := by
        rw [eD, hat_i1 _ (getElem?_eq_some_getD pts (i+1) (by omega))]
        rfl
      have e_other : ∀ j, j ≠ i → j ≠ i + 1 →
          pts2.getD j default = pts.getD j default := by
        intro j h1 h2
        rw [eD, hother j h1 h2, ← eD]
      intro j hj
      rw [hlen2] at hj
      by_cases hji : j = i
      · subst hji
        refine Or.inl ?_
        rw [e_i, e_i1]
      · by_cases hji1 : j + 1 = i
        · refine Or.inr ?_
          have hj_ne : j ≠ i + 1 := by omega
          rw [e_other j hji hj_ne, hji1, e_i]
          have := hprev (by omega)
          have hj_eq : i - 1 = j := by omega
          rw [hj_eq] at this
          exact this
        · by_cases hji2 : j = i + 1
          · subst hji2
            refine Or.inr ?_
            rw [e_i1, e_other (i+1+1) (by omega) (by omega)]
            exact hnext (by omega)
          · have h1 : j + 1 ≠ i := hji1
            have h2 : j + 1 ≠ i + 1 := by omega
            rw [e_other j hji hji2, e_other (j+1) h1 h2]
            exact hOrtho j hj

/-- C4 counterexample: the claim as stated fails when the dragged
segment's neighbour is collinear with it.  The path (0,0) (50,0) (100,0)
(100,50) is orthogonal (within the 0.5 tolerance) and its segment 1 is
classified horizontal, but dragging that segment's y to 60 makes the first
segment run from (0,0) to (50,60) — diagonal — so the resulting path is no
longer orthogonal. -/
theorem updateConnectionPath_orthogonality_counterexample :
    OrthoPathB (1/2) [⟨some 0, some 0⟩, ⟨some 50, some 0⟩,
      ⟨some 100, some 0⟩, ⟨some 100, some 50⟩] = true ∧
    segIsHorizontal [⟨some 0, some 0⟩, ⟨some 50, some 0⟩,
      ⟨some 100, some 0⟩, ⟨some 100, some 50⟩] 1 = true ∧
    (updateConnectionPath
        (some [⟨some 0, some 0⟩, ⟨some 50, some 0⟩,
          ⟨some 100, some 0⟩, ⟨some 100, some 50⟩])
        (some "M 0 0") 1 75 60
        (segIsHorizontal [⟨some 0, some 0⟩, ⟨some 50, some 0⟩,
          ⟨some 100, some 0⟩, ⟨some 100, some 50⟩] 1)
        (segIsVertical [⟨some 0, some 0⟩, ⟨some 50, some 0⟩,
          ⟨some 100, some 0⟩, ⟨some 100, some 50⟩] 1)).1 =
      some [⟨some 0, some 0⟩, ⟨some 50, some 60⟩,
        ⟨some 100, some 60⟩, ⟨some 100, some 50⟩] ∧
    OrthoPathB (1/2) [⟨some 0, some 0⟩, ⟨some 50, some 60⟩,
      ⟨some 100, some 60⟩, ⟨some 100, some 50⟩] = false := by
  refine ⟨?_, ?_, ?_, ?_⟩
  · norm_num [OrthoPathB, oabsLt, List.getD, List.range_succ]
  · norm_num [segIsHorizontal, oabsLt, List.getD]
  · norm_num [updateConnectionPath, segIsHorizontal, segIsVertical, oabsLt,
      setPtY, List.getD]
  · norm_num [OrthoPathB, oabsLt, List.getD, List.range_succ]

/-- C4 witness: the default-shaped path (0,0) (50,0) (50,50) (100,50),
segment 0 horizontal with a vertical neighbour, dragged to y 60: the
update succeeds, moves both endpoints of segment 0 to y 60 and the path
stays exactly orthogonal. -/
theorem updateConnectionPath_drag_spec_witness :
    ∃ pts2 : List JPt,
      updateConnectionPath
          (some [⟨some 0, some 0⟩, ⟨some 50, some 0⟩,
            ⟨some 50, some 50⟩, ⟨some 100, some 50⟩])
          (some "M 0 0") 0 25 60
          (segIsHorizontal [⟨some 0, some 0⟩, ⟨some 50, some 0⟩,
            ⟨some 50, some 50⟩, ⟨some 100, some 50⟩] 0)
          (segIsVertical [⟨some 0, some 0⟩, ⟨some 50, some 0⟩,
            ⟨some 50, some 50⟩, ⟨some 100, some 50⟩] 0) =
        (some pts2, some (generatePathFromPoints pts2)) ∧
      pts2[0]? = some ⟨some 0, some 60⟩ ∧
      pts2[1]? = some ⟨some 50, some 60⟩ ∧
      StrictOrtho pts2 := by
  obtain ⟨pts2, h1, h2, h3, h4, h5, h6⟩ :=
    updateConnectionPath_drag_spec.1
      [⟨some 0, some 0⟩, ⟨some 50, some 0⟩,
        ⟨some 50, some 50⟩, ⟨some 100, some 50⟩]
      "M 0 0" 0 25 60 (by norm_num)
      (by norm_num [segIsHorizontal, oabsLt, List.getD])
  refine ⟨pts2, h1, ?_, ?_, ?_⟩
  · have := h3 ⟨some 0, some 0⟩ rfl
    simpa using this
  · have := h4 ⟨some 50, some 0⟩ rfl
    simpa using this
  · apply h6
    · intro j hj
      simp only [List.length_cons, List.length_nil] at hj
      have hj2 : j ≤ 2 := by omega
      interval_cases j
      · exact Or.inr rfl
      · exact Or.inl rfl
      · exact Or.inr rfl
    · intro hcon
      omega
    · intro hlt
      exact rfl

/-- C5: the source mutates the cached baseline.  For the baseline
(0,0) (50,0) cached at select time (path string M 0 0 L 50 0), one drag
move of segment 0 (horizontal) to y 60 leaves this.originalPathPoints
holding (0,60) (50,60): the cached points were changed, because the spread
copy shares the point objects with the baseline array. -/
theorem updateConnectionPath_baseline_mutated :
    (updateConnectionPath (some [⟨some 0, some 0⟩, ⟨some 50, some 0⟩])
        (some "M 0 0 L 50 0") 0 25 60
        (segIsHorizontal [⟨some 0, some 0⟩, ⟨some 50, some 0⟩] 0)
        (segIsVertical [⟨some 0, some 0⟩, ⟨some 50, some 0⟩] 0)).1 =
      some [⟨some 0, some 60⟩, ⟨some 50, some 60⟩] ∧
    ((some [⟨some 0, some 60⟩, ⟨some 50, some 60⟩] : Option (List JPt)) ≠
      some [⟨some 0, some 0⟩, ⟨some 50, some 0⟩]) := by
  constructor
  · norm_num [updateConnectionPath, segIsHorizontal, segIsVertical, oabsLt,
      setPtY, List.getD]
  · decide

lemma generatePathFromPoints_ne_empty (pts : List JPt) (h2 : 2 ≤ pts.length) :
    generatePathFromPoints pts ≠ "" := by
  unfold generatePathFromPoints generatePathChars
  rw [if_neg (by omega)]
  cases pts with
  | nil => simp at h2
  | cons p l =>
    intro hcon
    have hd := congrArg String.data hcon
    simp at hd

/-- C3: after showControlHandles on a note whose connector path parses to
two points, the baseline path IS cached and one handle IS created at the
segment midpoint (the 8 by 8 handle rect at (21, -4) is centred on the
midpoint (25, 0)), but the controller's selectedRecordId is null, not the
selected note's id: showControlHandles assigns it and then calls
hideControlHandles, which resets it, so the claim's "currently-selected
record id equals noteId" is violated by the code. -/
theorem showControlHandles_leaves_selection_null :
    showControlHandles ⟨none, none, []⟩ "r1"
        (fun rid => if rid = "r1" then
          some (some (generatePathFromPoints
            [⟨some 0, some 0⟩, ⟨some 50, some 0⟩]))
          else none) =
      ⟨none, some [⟨some 0, some 0⟩, ⟨some 50, some 0⟩],
        [⟨some 21, some (-4), 0, "r1", true, false⟩]⟩ := by
  have hrt : parsePathData (generatePathFromPoints
      [⟨some 0, some 0⟩, ⟨some 50, some 0⟩]) =
      [(⟨some 0, some 0⟩ : JPt), ⟨some 50, some 0⟩] := by
    apply parsePathData_generate
    · norm_num
    · intro p hp
      fin_cases hp <;> exact ⟨⟨_, rfl, by decide⟩, ⟨_, rfl, by decide⟩⟩
  unfold showControlHandles
  simp only [reduceIte]
  rw [if_neg (generatePathFromPoints_ne_empty _ (by norm_num))]
  rw [hrt]
  rw [if_neg (by norm_num)]
  simp only [hideControlHandles]
  norm_num [createSegmentControlHandles, createControlHandle, omid, osubc,
    segIsHorizontal, segIsVertical, oabsLt, List.getD, List.range_succ]

/-! Card-drag adjustment of a stored custom connection line (C6). -/

/-- A stored connectionLine value with its path points (as produced by the
drag commit: parsePathData output). -/
structure CLStored where
  isCustom : Bool
  pathPoints : List JPt
  lastModified : String
deriving DecidableEq, Repr

/-- Index-aware map, modelling Array.prototype.map((point, index) => ...). -/
def mapWithIdx (f : ℕ → JPt → JPt) : ℕ → List JPt → List JPt
  | _, [] => []
  | i, p :: rest => f i p :: mapWithIdx f (i + 1) rest

/-- Embedding of adjustConnectionLineForNewPosition (connection-line
adjuster): with no points the input is returned unchanged; otherwise every
point except the first (index 0, the date-dot anchor, returned as a copy)
is translated by the position delta, and the connectionLine value is
returned with the adjusted points (other fields spread over unchanged). -/
def adjustConnectionLineForNewPosition (originalConnectionLine : CLStored)
    (oldPosition newPosition : Pt) : CLStored :=
  if originalConnectionLine.pathPoints.length = 0 then originalConnectionLine
  else
    let deltaX := newPosition.x - oldPosition.x
    let deltaY := newPosition.y - oldPosition.y
    { originalConnectionLine with
      pathPoints := mapWithIdx
        (fun i p => if i = 0 then p else ⟨oaddc p.x deltaX, oaddc p.y deltaY⟩)
        0 originalConnectionLine.pathPoints }

/-- Embedding of updateConnectionLineDataForNewPosition (record manager):
the in-place record variant of the same per-point translation, which also
stamps lastModified with the current time; absent connectionLine or empty
pathPoints are left untouched. -/
def updateConnectionLineDataForNewPosition (connectionLine : Option CLStored)
    (oldPosition newPosition : Pt) (now : String) : Option CLStored :=
  match connectionLine with
  | none => none
  | some cl =>
    if cl.pathPoints.length = 0 then some cl
    else
      let deltaX := newPosition.x - oldPosition.x
      let deltaY := newPosition.y - oldPosition.y
      some { cl with
        pathPoints := mapWithIdx
          (fun i p => if i = 0 then p else ⟨oaddc p.x deltaX, oaddc p.y deltaY⟩)
          0 cl.pathPoints,
        lastModified := now }

lemma mapWithIdx_length (f : ℕ → JPt → JPt) :
    ∀ (l : List JPt) (k : ℕ), (mapWithIdx f k l).length = l.length := by
  intro l
  induction l with
  | nil => intro k; rfl
  | cons p rest ih =>
    intro k
    simp only [mapWithIdx, List.length_cons, ih (k + 1)]

lemma mapWithIdx_getElem (f : ℕ → JPt → JPt) :
    ∀ (l : List JPt) (k j : ℕ),
      (mapWithIdx f k l)[j]? = (l[j]?).map (f (k + j)) := by
  intro l
  induction l with
  | nil => intro k j; simp [mapWithIdx]
  | cons p rest ih =>
    intro k j
    cases j with
    | zero => simp [mapWithIdx]
    | succ j =>
      simp only [mapWithIdx, List.getElem?_cons_succ, ih (k + 1) j]
      have hk : k + 1 + j = k + (j + 1) := by omega
      rw [hk]

lemma translatePts_spec (dx dy : ℚ) (pts : List JPt) :
    (mapWithIdx (fun i p => if i = 0 then p else
      ⟨oaddc p.x dx, oaddc p.y dy⟩) 0 pts).head? = pts.head? ∧
    (mapWithIdx (fun i p => if i = 0 then p else
      ⟨oaddc p.x dx, oaddc p.y dy⟩) 0 pts).length = pts.length ∧
    (∀ i, 1 ≤ i → ∀ x y : ℚ, pts[i]? = some ⟨some x, some y⟩ →
      (mapWithIdx (fun i p => if i = 0 then p else
        ⟨oaddc p.x dx, oaddc p.y dy⟩) 0 pts)[i]? =
        some ⟨some (x + dx), some (y + dy)⟩) := by
  refine ⟨?_, mapWithIdx_length _ pts 0, ?_⟩
  · cases pts with
    | nil => rfl
    | cons p rest => simp [mapWithIdx]
  · intro i hi x y hxy
    rw [mapWithIdx_getElem _ pts 0 i, hxy]
    have hi0 : ¬ (0 + i = 0) := by omega
    have hmap : ((some (⟨some x, some y⟩ : JPt)).map (fun p =>
        if 0 + i = 0 then p else
          (⟨oaddc p.x dx, oaddc p.y dy⟩ : JPt))) =
        some (if 0 + i = 0 then (⟨some x, some y⟩ : JPt) else
          ⟨oaddc (some x) dx, oaddc (some y) dy⟩) := rfl
    rw [hmap, if_neg hi0]
    simp [oaddc]

/-- C6: neither card-drag path adjustment ever alters pathPoints[0].  Both
the adjuster's adjustConnectionLineForNewPosition and the record manager's
updateConnectionLineDataForNewPosition keep the first point (the calendar
ring anchor) exactly, keep the path length, and translate every other
point by exactly the position delta newPosition - oldPosition. -/
theorem connectionLine_anchor_immutable :
    (∀ (cl : CLStored) (oldP newP : Pt), cl.pathPoints ≠ [] →
      (adjustConnectionLineForNewPosition cl oldP newP).pathPoints.head? =
        cl.pathPoints.head? ∧
      (adjustConnectionLineForNewPosition cl oldP newP).pathPoints.length =
        cl.pathPoints.length ∧
      (∀ i, 1 ≤ i → ∀ x y : ℚ, cl.pathPoints[i]? = some ⟨some x, some y⟩ →
        (adjustConnectionLineForNewPosition cl oldP newP).pathPoints[i]? =
          some ⟨some (x + (newP.x - oldP.x)), some (y + (newP.y - oldP.y))⟩)) ∧
    (∀ (cl : CLStored) (oldP newP : Pt) (now : String), cl.pathPoints ≠ [] →
      ∃ cl2, updateConnectionLineDataForNewPosition (some cl) oldP newP now =
          some cl2 ∧
        cl2.pathPoints.head? = cl.pathPoints.head? ∧
        cl2.pathPoints.length = cl.pathPoints.length ∧
        (∀ i, 1 ≤ i → ∀ x y : ℚ, cl.pathPoints[i]? = some ⟨some x, some y⟩ →
          cl2.pathPoints[i]? =
            some ⟨some (x + (newP.x - oldP.x)), some (y + (newP.y - oldP.y))⟩)) := by
  constructor
  · intro cl oldP newP hne
    have hlen0 : ¬ (cl.pathPoints.length = 0) := by
      simpa [List.length_eq_zero] using hne
    unfold adjustConnectionLineForNewPosition
    rw [if_neg hlen0]
    exact translatePts_spec (newP.x - oldP.x) (newP.y - oldP.y) cl.pathPoints
  · intro cl oldP newP now hne
    have hlen0 : ¬ (cl.pathPoints.length = 0) := by
      simpa [List.length_eq_zero] using hne
    simp only [updateConnectionLineDataForNewPosition]
    rw [if_neg hlen0]
    exact ⟨_, rfl, translatePts_spec (newP.x - oldP.x) (newP.y - oldP.y)
      cl.pathPoints⟩

/-- C6 witness: a two-point custom path anchored at (100, 100) with the
card moved from (200, 80) to (210, 95): under both functions the anchor
stays (100, 100) and the second point moves by (10, 15) to (160, 115). -/
theorem connectionLine_anchor_immutable_witness :
    (adjustConnectionLineForNewPosition
        ⟨true, [⟨some 100, some 100⟩, ⟨some 150, some 100⟩], "t"⟩
        ⟨200, 80⟩ ⟨210, 95⟩).pathPoints.head? = some ⟨some 100, some 100⟩ ∧
    (adjustConnectionLineForNewPosition
        ⟨true, [⟨some 100, some 100⟩, ⟨some 150, some 100⟩], "t"⟩
        ⟨200, 80⟩ ⟨210, 95⟩).pathPoints[1]? = some ⟨some 160, some 115⟩ := by
  obtain ⟨h1, h2, h3⟩ := connectionLine_anchor_immutable.1
    ⟨true, [⟨some 100, some 100⟩, ⟨some 150, some 100⟩], "t"⟩
    ⟨200, 80⟩ ⟨210, 95⟩ (by simp)
  constructor
  · rw [h1]; rfl
  · have := h3 1 (by norm_num) 150 100 rfl
    rw [this]
    norm_num

/-! Load-time validation of persisted connectionLine data (record
manager).  Stored JSON values are modelled just finely enough to express
the JS dynamic checks: a number field can be finite, NaN or infinite (all
of typeof number), or a non-number; an array entry can be a proper point
object or something whose x and y reads do not produce numbers (a falsy
value or a truthy non-object — the validator rejects both the same way);
the pathPoints field can be missing, a non-array, or an array. -/

/-- A JS number value: the JS typeof test reports number for all of these constructors. -/
inductive JSNum where
  | fin (q : ℚ)
  | nan
  | inf
  | ninf
deriving DecidableEq, Repr

/-- A field read from a stored point object. -/
inductive JSField where
  | undef
  | num (v : JSNum)
  | nonNum
deriving DecidableEq, Repr

/-- One entry of a stored pathPoints array. -/
inductive PPEntry where
  | bad
  | pt (x y : JSField)
deriving DecidableEq, Repr

/-- The stored pathPoints field. -/
inductive PathPointsVal where
  | missing
  | notArray
  | arr (l : List PPEntry)
deriving DecidableEq, Repr

/-- A stored connectionLine object. -/
structure StoredCL where
  isCustom : Bool
  pathPoints : PathPointsVal
deriving DecidableEq, Repr

/-- A stored connectionLine value as read from a record: null or
undefined, some truthy non-object, or an object. -/
inductive ConnVal where
  | nullish
  | nonObject
  | obj (c : StoredCL)
deriving DecidableEq, Repr

/-- The per-entry numeric check of the validator's loop: the entry is a
point object whose x and y are both of number type (NaN and Infinity
included). -/
def entryNumB (e : PPEntry) : Bool :=
  match e with
  | .bad => false
  | .pt x y =>
    (match x with | .num _ => true | _ => false) &&
    (match y with | .num _ => true | _ => false)

/-- Embedding of validateConnectionLineData (record manager): reject a
non-object, a missing or non-array pathPoints, fewer than 2 points, or any
entry failing the per-point number-type check; accept otherwise. -/
def validateConnectionLineData (v : ConnVal) : Bool :=
  match v with
  | .nullish => false
  | .nonObject => false
  | .obj c =>
    match c.pathPoints with
    | .missing => false
    | .notArray => false
    | .arr l => if l.length < 2 then false else l.all entryNumB

/-- A record as the cleanup pass sees it. -/
structure RecordM where
  connLine : Option ConnVal
  updatedAt : String
deriving DecidableEq, Repr

/-- The cleanup condition of one record: a connectionLine is present, is
an object whose isCustom is set (for null/undefined or a non-object the
source's truthiness test on record.connectionLine.isCustom fails and the
record is skipped), and fails validation. -/
def connLineNeedsCleanup (r : RecordM) : Bool :=
  match r.connLine with
  | some (ConnVal.obj c) => c.isCustom && !validateConnectionLineData (ConnVal.obj c)
  | _ => false

/-- Embedding of cleanupInvalidConnectionLines (record manager): delete
the connectionLine of (and stamp updatedAt on) every custom record whose
data fails validation; the count of cleaned records is returned together
with whether the autosave hook fires (exactly when the count is
positive). -/
def cleanupInvalidConnectionLines (records : List RecordM) (now : String) :
    List RecordM × ℕ × Bool :=
  let cleaned := records.map (fun r =>
    if connLineNeedsCleanup r then { connLine := none, updatedAt := now }
    else r)
  let cnt := records.countP connLineNeedsCleanup
  (cleaned, cnt, decide (0 < cnt))

/-- C9: load-time cleanup of corrupt connectionLine data.  Any custom
connectionLine whose pathPoints is missing, not an array, shorter than 2
points, or contains an entry without numeric x and y fails validation;
the cleanup pass deletes exactly the connectionLine of such records
(stamping updatedAt), leaves every other record untouched, triggers the
autosave exactly when at least one record was cleaned, and a record whose
connectionLine was deleted is subsequently drawn with the default path
(createConnectionPath with no data). -/
theorem cleanupInvalidConnectionLines_spec :
    (∀ c : StoredCL,
      (c.pathPoints = PathPointsVal.missing ∨
       c.pathPoints = PathPointsVal.notArray ∨
       (∃ l, c.pathPoints = PathPointsVal.arr l ∧
         (l.length < 2 ∨ ∃ e ∈ l, entryNumB e = false))) →
      validateConnectionLineData (ConnVal.obj c) = false) ∧
    (∀ (records : List RecordM) (now : String) (k : ℕ) (r : RecordM)
        (c : StoredCL),
      records[k]? = some r → r.connLine = some (ConnVal.obj c) →
      c.isCustom = true → validateConnectionLineData (ConnVal.obj c) = false →
      (cleanupInvalidConnectionLines records now).1[k]? =
        some ⟨none, now⟩) ∧
    (∀ (records : List RecordM) (now : String) (k : ℕ) (r : RecordM),
      records[k]? = some r → connLineNeedsCleanup r = false →
      (cleanupInvalidConnectionLines records now).1[k]? = some r) ∧
    (∀ (records : List RecordM) (now : String),
      (cleanupInvalidConnectionLines records now).2.2 = true ↔
        ∃ r ∈ records, connLineNeedsCleanup r = true) ∧
    (∀ sx sy ex ey : ℚ, createConnectionPath sx sy ex ey none =
      generatePathFromPoints
        [⟨some sx, some sy⟩, ⟨some (sx + (ex - sx) * 0.5), some sy⟩,
         ⟨some (sx + (ex - sx) * 0.5), some ey⟩, ⟨some ex, some ey⟩]) := by
  refine ⟨?_, ?_, ?_, ?_, createConnectionPath_none_eq_default⟩
  · intro c hc
    simp only [validateConnectionLineData]
    rcases hc with hm | hn | ⟨l, hl, hbad⟩
    · rw [hm]
    · rw [hn]
    · rw [hl]
      show (if l.length < 2 then false else l.all entryNumB) = false
      rcases hbad with hlen | ⟨e, he, hbe⟩
      · rw [if_pos hlen]
      · rcases Nat.lt_or_ge l.length 2 with h2 | h2
        · rw [if_pos h2]
        · rw [if_neg (by omega)]
          rw [List.all_eq_false]
          exact ⟨e, he, by simp [hbe]⟩
  · intro records now k r c hk hr hcustom hval
    have hclean : connLineNeedsCleanup r = true := by
      unfold connLineNeedsCleanup
      rw [hr]
      show (c.isCustom && !validateConnectionLineData (ConnVal.obj c)) = true
      rw [hcustom, hval]
      rfl
    unfold cleanupInvalidConnectionLines
    simp only [List.getElem?_map, hk, Option.map_some']
    rw [if_pos hclean]
  · intro records now k r hk hclean
    unfold cleanupInvalidConnectionLines
    simp only [List.getElem?_map, hk, Option.map_some']
    rw [if_neg (by simp [hclean])]
  · intro records now
    unfold cleanupInvalidConnectionLines
    simp only [decide_eq_true_eq]
    rw [List.countP_pos]

/-- C9 witness: a record whose custom connectionLine has a single path
point (the spec's example 6) is cleaned: its connectionLine is deleted and
the autosave fires. -/
theorem cleanupInvalidConnectionLines_spec_witness :
    (cleanupInvalidConnectionLines
        [⟨some (ConnVal.obj ⟨true, PathPointsVal.arr
          [PPEntry.pt (JSField.num (JSNum.fin 1)) (JSField.num (JSNum.fin 2))]⟩),
          "u"⟩] "now").1[0]? = some ⟨none, "now"⟩ ∧
    (cleanupInvalidConnectionLines
        [⟨some (ConnVal.obj ⟨true, PathPointsVal.arr
          [PPEntry.pt (JSField.num (JSNum.fin 1)) (JSField.num (JSNum.fin 2))]⟩),
          "u"⟩] "now").2.2 = true := by
  constructor
  · exact cleanupInvalidConnectionLines_spec.2.1 _ "now" 0 _ _ rfl rfl rfl
      (cleanupInvalidConnectionLines_spec.1 _
        (Or.inr (Or.inr ⟨_, rfl, Or.inl (by norm_num)⟩)))
  · exact (cleanupInvalidConnectionLines_spec.2.2.2.1 _ "now").mpr
      ⟨_, List.mem_cons_self _ _, by decide⟩

/-- C10: the validator checks only the TYPE of the coordinates, not their
finiteness: a custom connectionLine whose at-least-2 path points all have
x and y of number type passes validation even when coordinates are NaN or
infinite, and the cleanup pass retains such a record unchanged. -/
theorem validateConnectionLineData_accepts_nonfinite :
    ∀ (c : StoredCL) (l : List PPEntry), c.isCustom = true →
      c.pathPoints = PathPointsVal.arr l → 2 ≤ l.length →
      (∀ e ∈ l, entryNumB e = true) →
      validateConnectionLineData (ConnVal.obj c) = true ∧
      (∀ u, connLineNeedsCleanup ⟨some (ConnVal.obj c), u⟩ = false) := by
  intro c l hcustom harr h2 hnum
  have hval : validateConnectionLineData (ConnVal.obj c) = true := by
    simp only [validateConnectionLineData]
    rw [harr]
    show (if l.length < 2 then false else l.all entryNumB) = true
    rw [if_neg (by omega)]
    exact List.all_eq_true.mpr hnum
  refine ⟨hval, ?_⟩
  intro u
  unfold connLineNeedsCleanup
  show (c.isCustom && !validateConnectionLineData (ConnVal.obj c)) = false
  rw [hval]
  simp

/-- C10 witness: a 2-point custom path whose coordinates include NaN and
both infinities is accepted and retained. -/
theorem validateConnectionLineData_accepts_nonfinite_witness :
    validateConnectionLineData (ConnVal.obj ⟨true, PathPointsVal.arr
      [PPEntry.pt (JSField.num JSNum.nan) (JSField.num (JSNum.fin 5)),
       PPEntry.pt (JSField.num JSNum.inf) (JSField.num JSNum.ninf)]⟩) = true ∧
    connLineNeedsCleanup ⟨some (ConnVal.obj ⟨true, PathPointsVal.arr
      [PPEntry.pt (JSField.num JSNum.nan) (JSField.num (JSNum.fin 5)),
       PPEntry.pt (JSField.num JSNum.inf) (JSField.num JSNum.ninf)]⟩), "u"⟩ =
      false := by
  obtain ⟨h1, h2⟩ := validateConnectionLineData_accepts_nonfinite
    ⟨true, PathPointsVal.arr
      [PPEntry.pt (JSField.num JSNum.nan) (JSField.num (JSNum.fin 5)),
       PPEntry.pt (JSField.num JSNum.inf) (JSField.num JSNum.ninf)]⟩
    [PPEntry.pt (JSField.num JSNum.nan) (JSField.num (JSNum.fin 5)),
     PPEntry.pt (JSField.num JSNum.inf) (JSField.num JSNum.ninf)]
    rfl rfl (by norm_num) (by decide)
  exact ⟨h1, h2 "u"⟩

end YearCircle
